import Mathlib

/-!
Verification of the concurrent lookup core of the mdm_project repository.

The development shallowly embeds:
* `services/zipcode_service.py` — the normalization helper `_norm_cep`, the
  primary provider `_zipcodebase_lookup` (retry/backoff loop), the fallback
  provider `_via_cep`, and the coalescing cache logic of
  `enrich_address_with_zipcode`, the latter as a small-step transition system
  over the process-wide `_ZIP_CACHE` / `_INFLIGHT` / semaphore state under
  cooperative (non-preemptive) scheduling: code between two suspension points
  runs as one atomic step, and a scheduler chooses which task steps next.
* `app.py` — the bounded-concurrency stage executor pattern of the closures
  `_n` / `_a` (semaphore + gather + per-record issue capture).

Machine integers are modelled as `Nat`; delays as `ℚ`; Python dicts as
assoc lists (records) or function-valued finite maps (process-wide tables);
HTTP responses as scripted environment values.
-/

namespace MDM

/-! ## Function-valued finite maps (the process-wide dicts) -/

def fupd {κ β : Type} [DecidableEq κ] (f : κ → β) (k : κ) (v : β) : κ → β :=
  fun k' => if k' = k then v else f k'

/-! ## Python value helpers -/

/-- Python: `x or d` for an optional string `x` (Python truthiness: `None` and `""` are falsy). -/
def pyOrStr (o : Option String) (d : String) : String :=
  match o with
  | some s => if s = "" then d else s
  | none => d

/-- Python: `x or None` for an optional string (maps `""` to `None`). -/
def pyOrNone (o : Option String) : Option String :=
  match o with
  | some s => if s = "" then none else some s
  | none => none

/-- Python: `a or b` on optional strings (first truthy wins). -/
def pyOrOpt (a b : Option String) : Option String :=
  match a with
  | some s => if s = "" then b else some s
  | none => b

/-- Python: `s.upper()` on the char sequence (ASCII case mapping, as used for the
two-letter country codes handled here). -/
def pyUpper (s : String) : String :=
  String.mk (s.data.map Char.toUpper)

/-- Python: `"".join(c for c in s if c.isdigit())`. -/
def digitsOf (s : String) : String :=
  String.mk (s.data.filter Char.isDigit)

/-! ## Records and lookup results

The lookup providers return either `{}` ("resolved, nothing found") or a
dict with the eight address fields; `LookupResult` distinguishes the two,
matching Python dict truthiness (`{}` is falsy, a populated dict is truthy). -/

structure AddressFields where
  thoroughfare : Option String
  house_number : Option String
  neighborhood : Option String
  city : Option String
  state : Option String
  postal_code : Option String
  country_code : Option String
  complement : Option String
deriving DecidableEq

inductive LookupResult where
  | empty
  | found (fields : AddressFields)
deriving DecidableEq

/-- A record field value: per `schemas.InputRecord` every incoming field is an
optional string; the reserved `"_parsed"` slot holds a lookup result dict. -/
inductive FieldVal where
  | str (s : String)
  | null
  | res (r : LookupResult)
deriving DecidableEq

/-- A record is a Python dict: field name to value. -/
abbrev Record := List (String × FieldVal)

def recordGet : Record → String → Option FieldVal
  | [], _ => none
  | (k', v) :: t, k => if k' = k then some v else recordGet t k

def recordSet : Record → String → FieldVal → Record
  | [], k, v => [(k, v)]
  | (k', v') :: t, k, v => if k' = k then (k, v) :: t else (k', v') :: recordSet t k v

/-- Python: `_norm_cep`: `""` for a falsy argument, else keep only the digits. -/
def normCep (cep : Option String) : String :=
  match cep with
  | none => ""
  | some s => digitsOf s

/-- Python: `record.get("cep", "")` as seen by `_norm_cep` (a missing key and a
`None` value are both falsy). -/
def cepField (r : Record) : Option String :=
  match recordGet r "cep" with
  | some (.str s) => some s
  | _ => none

/-- The normalized lookup key of a record: `_norm_cep(record.get("cep", ""))`. -/
def recordCep (r : Record) : String := normCep (cepField r)

/-- Python: `(record.get("country_code") or "BR").upper()`. -/
def countryOf (r : Record) : String :=
  pyUpper (pyOrStr (match recordGet r "country_code" with
            | some (.str s) => some s
            | _ => none) "BR")

/-! ## Primary provider: `_zipcodebase_lookup`

One scripted environment value per attempt: either an HTTP response
(status, optional `Retry-After` header, result list for the queried code) or
a raised exception (`connectError` / `readTimeout` are the retryable network
errors; `raised` is any other exception in the attempt body, e.g. a JSON
decode failure, caught by the final `except Exception`). -/

structure ZBEntry where
  street : Option String
  district : Option String
  city : Option String
  state_code : Option String
  state : Option String
deriving DecidableEq

inductive ZBResp where
  | http (status : Nat) (retryAfter : Option String) (results : List ZBEntry)
  | connectError
  | readTimeout
  | raised (msg : String)
deriving DecidableEq

/-- The "minimum stable output" dict assembled from the first result entry. -/
def zbAddress (cep country : String) (e : ZBEntry) : AddressFields :=
  { thoroughfare := pyOrNone e.street
    house_number := none
    neighborhood := pyOrNone e.district
    city := pyOrNone e.city
    state := pyOrNone (pyOrOpt e.state_code e.state)
    postal_code := some (if cep.length = 8 then cep.take 5 ++ "-" ++ cep.drop 5 else cep)
    country_code := some (pyUpper country)
    complement := none }

def digitsVal (ds : List Char) : Int :=
  ds.foldl (fun n c => n * 10 + ((c.toNat : Int) - 48)) 0

/-- Python's `int(s)` on a decimal string: an optional sign followed by at
least one digit parses, anything else raises `ValueError` (modelled as
`none`; surrounding whitespace and underscore separators are not used by
`Retry-After` values and are not modelled). -/
def pyParseInt (s : String) : Option Int :=
  match s.data with
  | [] => none
  | '-' :: ds =>
    if ds ≠ [] ∧ ds.all Char.isDigit then some (-(digitsVal ds)) else none
  | ds =>
    if ds ≠ [] ∧ ds.all Char.isDigit then some (digitsVal ds) else none

/-- The 429 wait before jitter: `int(Retry-After)` when the header is present
and parses as an integer, else `base_delay * attempt` (the `ValueError`
branch). -/
def hintWait (ra : Option String) (base : ℚ) (attempt : Nat) : ℚ :=
  match ra with
  | some s =>
    match pyParseInt s with
    | some n => (n : ℚ)
    | none => base * attempt
  | none => base * attempt

/-- Observable trace of one `_zipcodebase_lookup` call: the result, the number
of HTTP requests issued, and the backoff sleeps performed (in order). -/
structure ZBTrace where
  result : LookupResult
  attempts : Nat
  waits : List ℚ
deriving DecidableEq

/-- The body of the retry loop `for attempt in range(1, retries + 1)`:
`attempt` is the 1-based attempt number, the fuel is the number of loop
iterations left. `jitter n` is the `random.uniform(0, 0.5)` sample added on
attempt `n`. Falling out of the loop returns `{}`. -/
def zbLoop (cep country : String) (base : ℚ) (jitter : Nat → ℚ) (resp : Nat → ZBResp) :
    Nat → Nat → ZBTrace
  | _, 0 => ⟨.empty, 0, []⟩
  | attempt, fuel + 1 =>
    match resp attempt with
    | .http status ra results =>
      if status = 429 then
        -- Retry-After hint if it parses, else base_delay * attempt, plus jitter
        let w := hintWait ra base attempt + jitter attempt
        let t := zbLoop cep country base jitter resp (attempt + 1) fuel
        ⟨t.result, t.attempts + 1, w :: t.waits⟩
      else if 200 ≤ status ∧ status < 300 then
        -- r.raise_for_status() passes; read the result list for the code
        match results with
        | [] => ⟨.empty, 1, []⟩
        | e :: _ => ⟨.found (zbAddress cep country e), 1, []⟩
      else if 400 ≤ status ∧ status < 500 ∧ status ≠ 429 then
        -- HTTPStatusError, permanent client error: no point in retrying
        ⟨.empty, 1, []⟩
      else
        -- HTTPStatusError, 5xx (or other non-success): retry with backoff
        let w := base * attempt + jitter attempt
        let t := zbLoop cep country base jitter resp (attempt + 1) fuel
        ⟨t.result, t.attempts + 1, w :: t.waits⟩
    | .connectError =>
        let w := base * attempt + jitter attempt
        let t := zbLoop cep country base jitter resp (attempt + 1) fuel
        ⟨t.result, t.attempts + 1, w :: t.waits⟩
    | .readTimeout =>
        let w := base * attempt + jitter attempt
        let t := zbLoop cep country base jitter resp (attempt + 1) fuel
        ⟨t.result, t.attempts + 1, w :: t.waits⟩
    | .raised _ =>
        -- `except Exception`: log and return {}
        ⟨.empty, 1, []⟩

/-- Python: `_zipcodebase_lookup`: `retries = 3`, attempts numbered from 1. -/
def zipcodebaseLookup (cep country : String) (base : ℚ) (jitter : Nat → ℚ)
    (resp : Nat → ZBResp) : ZBTrace :=
  zbLoop cep country base jitter resp 1 3

/-! ## Fallback provider: `_via_cep` -/

inductive VCResp where
  | http (status : Nat) (erro : Bool) (bairro localidade uf : Option String)
  | raised (msg : String)
deriving DecidableEq

/-- Python: `_via_cep`: single unauthenticated GET; non-200, an `erro` flag, or any
exception maps to `{}`. -/
def viaCep (cep : String) (r : VCResp) : LookupResult :=
  match r with
  | .raised _ => .empty
  | .http status erro bairro localidade uf =>
    if status ≠ 200 then .empty
    else if erro then .empty
    else .found
      { thoroughfare := none
        house_number := none
        neighborhood := bairro
        city := localidade
        state := uf
        postal_code := if cep.length = 8 then some (cep.take 5 ++ "-" ++ cep.drop 5) else none
        country_code := some "BR"
        complement := none }

/-! ## Provider chain: the body guarded by the semaphore in
`enrich_address_with_zipcode` (primary if an API key is configured, then the
BR-only fallback if the result so far is empty). -/

structure ChainEnv where
  hasKey : Bool
  base : ℚ
  jitter : Nat → ℚ
  zb : Nat → ZBResp
  vc : VCResp

structure ChainTrace where
  result : LookupResult
  primaryAttempts : Nat
  fallbackCalls : Nat
deriving DecidableEq

/-- Python: `parsed = {}` then `if ZIPCODEBASE_KEY: parsed = await _zipcodebase_lookup(...)`. -/
def primaryPhase (cep country : String) (e : ChainEnv) : ZBTrace :=
  if e.hasKey then zipcodebaseLookup cep country e.base e.jitter e.zb
  else ⟨.empty, 0, []⟩

/-- Python: `if not parsed and country == "BR": parsed = await _via_cep(cep_digits)`;
instrumented with the number of primary HTTP attempts and fallback calls. -/
def providerChain (cep country : String) (e : ChainEnv) : ChainTrace :=
  let p := primaryPhase cep country e
  match p.result with
  | .empty =>
    if country = "BR" then ⟨viaCep cep e.vc, p.attempts, 1⟩
    else ⟨.empty, p.attempts, 0⟩
  | .found f => ⟨.found f, p.attempts, 0⟩

/-! ## The coalescing lookup machine: `enrich_address_with_zipcode`

Cooperative concurrency: each call is a task; code between two suspension
points (awaiting the in-flight future, acquiring the semaphore when no permit
is free, the awaits inside the provider chain) runs as one atomic step.  A
schedule is a list of task indices; scheduling a blocked or finished task is
a no-op.  The provider chain is abstracted by an environment function from
`(key, country)` to an outcome — `.ok r` for a normal return (instantiable by
`providerChain`, which never raises) or `.err` for an unexpected exception
inside the guarded block (the `except Exception` path the code defends
against).  Splitting the chain into an entry step and a completion step gives
the scheduler at least as many interleavings as the Python event loop, so
properties proved over all schedules cover the real executions. -/

inductive ChainOutcome where
  | ok (r : LookupResult)
  | err
deriving DecidableEq

/-- The lookup outcome a chain invocation delivers to its waiters: its result,
or `{}` when it raised (the error handler resolves the future with `{}`). -/
def coutcome : ChainOutcome → LookupResult
  | .ok r => r
  | .err => .empty

def SysEnv := String → String → ChainOutcome

/-- One `asyncio.Future` in the `_INFLIGHT` table: the key it was created for
and its resolution (`none` while pending). -/
structure FutCell where
  key : String
  val : Option LookupResult
deriving DecidableEq

/-- Program counter of one `enrich_address_with_zipcode` task, positioned at
its suspension points.  `done rec delivered` records the returned record plus
(as ghost data) the lookup outcome the caller observed: `none` when the key
was rejected, `some v` when a cache hit, a coalesced wait, or an own chain
invocation delivered `v`. -/
inductive TaskPC where
  | start (rec : Record)
  | waitFut (fid : Nat) (rec : Record) (key : String)
  | waitSem (fid : Nat) (rec : Record) (key country : String)
  | inChain (fid : Nat) (rec : Record) (key country : String)
  | done (rec : Record) (delivered : Option LookupResult)
deriving DecidableEq

structure SysState where
  cache : String → Option LookupResult
  inflight : String → Option Nat
  futures : Nat → Option FutCell
  nextFut : Nat
  permits : Nat
  ntasks : Nat
  tasks : Nat → TaskPC
  chainLog : List (String × String)

/-- The record mutation both the initiator and the waiters perform:
`if parsed: record["_parsed"] = parsed`. -/
def recWith (rec : Record) (v : LookupResult) : Record :=
  match v with
  | .found _ => recordSet rec "_parsed" (.res v)
  | .empty => rec

/-- Python: `if not fut.done(): fut.set_result(v)` on the future stored under `fid`. -/
def resolveFut (futs : Nat → Option FutCell) (fid : Nat) (v : LookupResult) :
    Nat → Option FutCell :=
  match futs fid with
  | some c => if c.val = none then fupd futs fid (some ⟨c.key, some v⟩) else futs
  | none => futs

/-- One atomic step of a task, given the global state; `none` means the task
is blocked (or finished) and scheduling it does nothing. -/
def stepTask (env : SysEnv) (s : SysState) : TaskPC → Option (TaskPC × SysState)
  | .start rec =>
    let cep := recordCep rec
    let country := countryOf rec
    if cep = "" ∨ cep.length < 5 then
      -- reject: return the record unchanged
      some (.done rec none, s)
    else
      match s.cache cep with
      | some v =>
        -- cache hit: record["_parsed"] = _ZIP_CACHE[cep_digits]; return record
        some (.done (recordSet rec "_parsed" (.res v)) (some v), s)
      | none =>
        match s.inflight cep with
        | some fid =>
          -- coalesce: suspend on the in-flight future
          some (.waitFut fid rec cep, s)
        | none =>
          -- initiator: register the future, then `async with _SEM`
          -- (no suspension between the check and the registration)
          let fid := s.nextFut
          let s1 := { s with
            inflight := fupd s.inflight cep (some fid)
            futures := fupd s.futures fid (some ⟨cep, none⟩)
            nextFut := fid + 1 }
          if 0 < s1.permits then
            some (.inChain fid rec cep country,
              { s1 with
                permits := s1.permits - 1
                chainLog := s1.chainLog ++ [(cep, country)] })
          else
            some (.waitSem fid rec cep country, s1)
  | .waitFut fid rec key =>
    match s.futures fid with
    | some c =>
      match c.val with
      | some parsed =>
        match parsed with
        | .found _ =>
          -- parsed = await fut; if parsed: _ZIP_CACHE[key] = parsed;
          -- record["_parsed"] = parsed; return record
          some (.done (recordSet rec "_parsed" (.res parsed)) (some parsed),
            { s with cache := fupd s.cache key (some parsed) })
        | .empty => some (.done rec (some .empty), s)
      | none => none
    | none => none
  | .waitSem fid rec key country =>
    if 0 < s.permits then
      some (.inChain fid rec key country,
        { s with
          permits := s.permits - 1
          chainLog := s.chainLog ++ [(key, country)] })
    else none
  | .inChain _fid rec key country =>
    -- the code resolves and pops via `_INFLIGHT[cep_digits]`, not the
    -- captured future, so the completion step reads the table by key
    match env key country with
    | .ok parsed =>
      -- if parsed: _ZIP_CACHE[key] = parsed
      let cache1 := match parsed with
        | .found _ => fupd s.cache key (some parsed)
        | .empty => s.cache
      match s.inflight key with
      | some fid2 =>
        -- if not _INFLIGHT[key].done(): _INFLIGHT[key].set_result(parsed);
        -- if parsed: record["_parsed"] = parsed; return record;
        -- semaphore released, finally: _INFLIGHT.pop(key, None)
        some (.done (recWith rec parsed) (some parsed),
          { s with
            cache := cache1
            futures := resolveFut s.futures fid2 parsed
            inflight := fupd s.inflight key none
            permits := s.permits + 1 })
      | none =>
        -- KeyError on `_INFLIGHT[key]` (unreachable on reachable states):
        -- the except branch finds no entry to resolve and returns the record
        some (.done rec (some .empty),
          { s with
            cache := cache1
            inflight := fupd s.inflight key none
            permits := s.permits + 1 })
    | .err =>
      -- unexpected exception in the guarded block: semaphore released,
      -- except: if key in _INFLIGHT and not done(): set_result({});
      -- return record; finally: _INFLIGHT.pop(key, None)
      let futures1 := match s.inflight key with
        | some fid2 => resolveFut s.futures fid2 .empty
        | none => s.futures
      some (.done rec (some .empty),
        { s with
          futures := futures1
          inflight := fupd s.inflight key none
          permits := s.permits + 1 })
  | .done _ _ => none

/-- Schedule task `i` for one step. -/
def stepAt (env : SysEnv) (s : SysState) (i : Nat) : SysState :=
  if i < s.ntasks then
    match stepTask env s (s.tasks i) with
    | none => s
    | some (pc, s1) => { s1 with tasks := fun j => if j = i then pc else s.tasks j }
  else s

def run (env : SysEnv) (s : SysState) (sched : List Nat) : SysState :=
  sched.foldl (stepAt env) s

/-- Fresh process state: empty cache and pending table, `p` semaphore permits
(`ZIPCODEBASE_MAX_CONCURRENCY`), one task per record of the batch. -/
def initState (p : Nat) (recs : List Record) : SysState :=
  { cache := fun _ => none
    inflight := fun _ => none
    futures := fun _ => none
    nextFut := 0
    permits := p
    ntasks := recs.length
    tasks := fun i =>
      match recs[i]? with
      | some r => .start r
      | none => .done [] none
    chainLog := [] }

/-! ### Observers on task states -/

def pcOwner : TaskPC → Option (String × Nat)
  | .waitSem fid _ key _ => some (key, fid)
  | .inChain fid _ key _ => some (key, fid)
  | _ => none

def pcIsInChain : TaskPC → Bool
  | .inChain _ _ _ _ => true
  | _ => false

def pcChainKey : TaskPC → Option String
  | .inChain _ _ key _ => some key
  | _ => none

def pcIsDone : TaskPC → Bool
  | .done _ _ => true
  | _ => false

def pcRec : TaskPC → Record
  | .start rec => rec
  | .waitFut _ rec _ => rec
  | .waitSem _ rec _ _ => rec
  | .inChain _ rec _ _ => rec
  | .done rec _ => rec

/-- Number of tasks currently executing the provider chain. -/
def inChainCount (s : SysState) : Nat :=
  ((List.range s.ntasks).filter (fun i => pcIsInChain (s.tasks i))).length

/-- Number of tasks currently executing the provider chain for key `k`. -/
def inKeyCount (s : SysState) (k : String) : Nat :=
  ((List.range s.ntasks).filter (fun i => decide (pcChainKey (s.tasks i) = some k))).length

/-- All tasks of the batch have returned. -/
def completed (s : SysState) : Prop :=
  ∀ i, i < s.ntasks → pcIsDone (s.tasks i) = true

instance (s : SysState) : Decidable (completed s) := by
  unfold completed; infer_instance

/-! ## The stage executor: the `_n` / `_a` closures in `app.py`

`await asyncio.gather(*[_n(r) for r in payload.records])` with
`sem = asyncio.Semaphore(C)` and, per record,
```
try:
    async with sem:
        return await op(r)
except Exception as e:
    issues.append({"stage": st, "id": rid(r), "error": str(e)})
    return default(r)
```
Each record is one task; the per-record operation either returns a value or
raises (scripted by `op`).  Acquiring a free permit does not suspend, so a
task moves from `start` directly to `running`; the operation's own awaits are
the `running` suspension; completion (including the issue append and the
semaphore release on both paths) is atomic.  `gather` returns the results in
argument order, which the model reflects by keeping slot `i` for task `i`
(`_a` differs from `_n` only by a pre-check and by returning the record
itself as the default). -/

structure Issue where
  stage : String
  id : Option String
  error : String
deriving DecidableEq

structure ExEnv (V : Type) where
  op : Nat → Except String V
  deflt : Nat → V
  stage : String
  ids : Nat → Option String

inductive ExPC (V : Type) where
  | start
  | waitSem
  | running
  | done (v : V)
deriving DecidableEq

structure ExState (V : Type) where
  permits : Nat
  ntasks : Nat
  tasks : Nat → ExPC V
  issues : List Issue

/-- The value slot `i` of the gathered result list ends up holding. -/
def exValue {V : Type} (env : ExEnv V) (i : Nat) : V :=
  match env.op i with
  | .ok v => v
  | .error _ => env.deflt i

def exStepAt {V : Type} (env : ExEnv V) (s : ExState V) (i : Nat) : ExState V :=
  if i < s.ntasks then
    match s.tasks i with
    | .start =>
      if 0 < s.permits then
        { s with permits := s.permits - 1, tasks := fun j => if j = i then .running else s.tasks j }
      else
        { s with tasks := fun j => if j = i then .waitSem else s.tasks j }
    | .waitSem =>
      if 0 < s.permits then
        { s with permits := s.permits - 1, tasks := fun j => if j = i then .running else s.tasks j }
      else s
    | .running =>
      match env.op i with
      | .ok v =>
        { s with permits := s.permits + 1,
                 tasks := fun j => if j = i then .done v else s.tasks j }
      | .error m =>
        -- semaphore released by the with-exit, then the except clause appends
        -- the issue and returns the default for this slot
        { s with permits := s.permits + 1,
                 tasks := fun j => if j = i then .done (env.deflt i) else s.tasks j
                 issues := s.issues ++ [⟨env.stage, env.ids i, m⟩] }
    | .done _ => s
  else s

def exRun {V : Type} (env : ExEnv V) (s : ExState V) (sched : List Nat) : ExState V :=
  sched.foldl (exStepAt env) s

def exInit (V : Type) (c n : Nat) : ExState V :=
  { permits := c, ntasks := n, tasks := fun _ => .start, issues := [] }

def exIsRunning {V : Type} : ExPC V → Bool
  | .running => true
  | _ => false

def exIsDone {V : Type} : ExPC V → Bool
  | .done _ => true
  | _ => false

/-- Number of per-record operations in flight. -/
def exRunningCount {V : Type} (s : ExState V) : Nat :=
  ((List.range s.ntasks).filter (fun i => exIsRunning (s.tasks i))).length

/-- The Issue recorded for a failing record, `{stage, id, error-message}`. -/
def exIssue {V : Type} (env : ExEnv V) (i : Nat) (m : String) : Issue :=
  ⟨env.stage, env.ids i, m⟩

/-- The issue list a completed batch accumulates, up to completion order:
one entry per failing record. -/
def exIssuesOf {V : Type} (env : ExEnv V) (n : Nat) : List Issue :=
  (List.range n).filterMap (fun i =>
    match env.op i with
    | .error m => some (exIssue env i m)
    | .ok _ => none)

/-- The positionally ordered result list of a completed batch. -/
def exResults {V : Type} (s : ExState V) : List (Option V) :=
  (List.range s.ntasks).map (fun i =>
    match s.tasks i with
    | .done v => some v
    | _ => none)

def exCompleted {V : Type} (s : ExState V) : Prop :=
  ∀ i, i < s.ntasks → exIsDone (s.tasks i) = true

instance {V : Type} (s : ExState V) : Decidable (exCompleted s) := by
  unfold exCompleted; infer_instance

/-! ## Reachability invariant of the lookup machine -/

/-- Invariant of every state reachable from `initState`.  `p` is the initial
permit count.  An *owner* of a key is a task between registering the
`PendingRequest` and popping it (states `waitSem` / `inChain`). -/
structure Inv (env : SysEnv) (p : Nat) (s : SysState) : Prop where
  junk_done : ∀ i, s.ntasks ≤ i → s.tasks i = .done [] none
  owner_unique : ∀ i j k fi fj, pcOwner (s.tasks i) = some (k, fi) →
    pcOwner (s.tasks j) = some (k, fj) → i = j
  owner_inflight : ∀ i k fid, pcOwner (s.tasks i) = some (k, fid) →
    s.inflight k = some fid
  inflight_owner : ∀ k fid, s.inflight k = some fid →
    ∃ i, pcOwner (s.tasks i) = some (k, fid)
  inflight_fut : ∀ k fid, s.inflight k = some fid → s.futures fid = some ⟨k, none⟩
  fut_lt : ∀ fid c, s.futures fid = some c → fid < s.nextFut
  wait_fut : ∀ i fid rec k, s.tasks i = .waitFut fid rec k →
    ∃ c, s.futures fid = some c ∧ c.key = k
  cache_pos : ∀ k v, s.cache k = some v → v ≠ .empty
  cache_chain : ∀ k v, s.cache k = some v → ∃ c, env k c = .ok v
  fut_chain : ∀ fid k v, s.futures fid = some ⟨k, some v⟩ → v ≠ .empty →
    ∃ c, env k c = .ok v
  fut_cache : ∀ fid k v, s.futures fid = some ⟨k, some v⟩ → v ≠ .empty →
    s.cache k = some v
  owner_nocache : ∀ i k fid, pcOwner (s.tasks i) = some (k, fid) → s.cache k = none
  permits_bal : s.permits + inChainCount s = p

/-! ## Single-flight scenario states

`K` tasks whose records all normalize to the same key start from a fresh
state.  After each task has taken its first step (the whole batch "arrives
before any external call resolves"), the first-scheduled task `o` is the
initiator executing the chain and everyone else awaits future `0`; after the
initiator's completion step every remaining task drains from the resolved
future.  `c` is the initiator's country argument, `v` the delivered
outcome. -/

def recAt (recs : List Record) (j : Nat) : Record := (recs[j]?).getD []

/-- Mid-arrival state: the owner `o` plus the set `started` of tasks that
have taken their first step and now await future `0`. -/
structure ArrivalState (recs : List Record) (key c : String) (p o : Nat)
    (started : Nat → Bool) (s : SysState) : Prop where
  hn : s.ntasks = recs.length
  hfid : s.nextFut = 1
  hperm : s.permits = p - 1
  hlog : s.chainLog = [(key, c)]
  hcache : ∀ k, s.cache k = none
  hinf : ∀ k, s.inflight k = if k = key then some 0 else none
  hfut : ∀ f, s.futures f = if f = 0 then some ⟨key, none⟩ else none
  howner : s.tasks o = .inChain 0 (recAt recs o) key c
  hwait : ∀ j, j < recs.length → j ≠ o →
    s.tasks j = if started j then .waitFut 0 (recAt recs j) key else .start (recAt recs j)
  hjunk : ∀ j, recs.length ≤ j → s.tasks j = .done [] none

/-- Python: `if parsed` on the cache store: a non-empty outcome is cached, an empty
one is not. -/
def cacheVal (key : String) (v : LookupResult) : String → Option LookupResult :=
  match v with
  | .found _ => fun k => if k = key then some v else none
  | .empty => fun _ => none

/-- Post-resolution state: the future is resolved with `v`, the pending entry
is gone, the permit is back, and the waiters in `dn` have drained. -/
structure ResolvedState (recs : List Record) (key c : String) (p o : Nat)
    (v : LookupResult) (dn : Nat → Bool) (s : SysState) : Prop where
  hn : s.ntasks = recs.length
  hfid : s.nextFut = 1
  hperm : s.permits = p
  hlog : s.chainLog = [(key, c)]
  hcache : ∀ k, s.cache k = cacheVal key v k
  hinf : ∀ k, s.inflight k = none
  hfut : ∀ f, s.futures f = if f = 0 then some ⟨key, some v⟩ else none
  howner : s.tasks o = .done (recWith (recAt recs o) v) (some v)
  hwait : ∀ j, j < recs.length → j ≠ o →
    s.tasks j = if dn j then .done (recWith (recAt recs j) v) (some v)
                else .waitFut 0 (recAt recs j) key
  hjunk : ∀ j, recs.length ≤ j → s.tasks j = .done [] none

/-- Single-flight scenario invariant after the whole batch has arrived:
either the initiator is still executing the chain and everyone else awaits
future `0`, or the future has been resolved and the waiters drain from it. -/
def SFInv (env : SysEnv) (recs : List Record) (key c : String) (p o : Nat)
    (s : SysState) : Prop :=
  (∃ started, (∀ j, j < recs.length → j ≠ o → started j = true) ∧
    ArrivalState recs key c p o started s) ∨
  (∃ dn, ResolvedState recs key c p o (coutcome (env key c)) dn s)

/-- A primary-provider attempt outcome that yields a parsed 2xx response
(the only way `_zipcodebase_lookup` can return non-empty data). -/
def zbSuccess (r : ZBResp) : Prop :=
  ∃ status ra results, r = .http status ra results ∧ 200 ≤ status ∧ status < 300

/-- Invariant of every reachable executor state: the permits and the
operations in flight balance the bound, finished slots hold their record's
value, out-of-range slots never move, and the issue list is exactly the
issues of the already-finished failing records, in completion order. -/
structure ExInv {V : Type} (env : ExEnv V) (c n : Nat) (s : ExState V) : Prop where
  hnt : s.ntasks = n
  hbal : s.permits + exRunningCount s = c
  hval : ∀ i v, s.tasks i = .done v → v = exValue env i
  hiss : ∃ ord : List Nat, ord.Nodup ∧
    (∀ i ∈ ord, i < s.ntasks ∧ exIsDone (s.tasks i) = true) ∧
    (∀ i, i < s.ntasks → exIsDone (s.tasks i) = true → i ∈ ord) ∧
    s.issues = ord.filterMap (fun i =>
      match env.op i with
      | .error m => some (exIssue env i m)
      | .ok _ => none)

/-! ## Concrete fixtures used to exercise the theorems -/

def afW : AddressFields := ⟨none, none, none, none, none, none, none, none⟩

/-- A scripted chain that always finds an address. -/
def envW : SysEnv := fun _ _ => .ok (.found afW)

/-- A scripted chain that always resolves empty. -/
def envE : SysEnv := fun _ _ => .ok .empty

def recW : Record := [("cep", FieldVal.str "12345")]

def recsW : List Record := [recW, recW]

def recShortW : Record := [("cep", FieldVal.str "12a3")]

/-- Primary provider script: 429 with a numeric hint on attempts 1 and 2,
success on attempt 3. -/
def respW : Nat → ZBResp := fun n =>
  if n = 3 then .http 200 none [⟨none, none, none, none, none⟩]
  else .http 429 (some "7") []

/-- Executor environment: record 2's operation always fails. -/
def exEnvW : ExEnv Nat :=
  ⟨fun i => if i = 2 then .error "boom" else .ok (i * 10),
   fun _ => 0, "normalize", fun i => some (Nat.repr i)⟩

def exSchedW : List Nat := [0, 1, 0, 2, 1, 2, 3, 4, 3, 4]

/-! ## Basic lemmas -/

@[simp] theorem fupd_same {κ β : Type} [DecidableEq κ] (f : κ → β) (k : κ) (v : β) :
    fupd f k v k = v := by
  simp [fupd]

@[simp] theorem fupd_other {κ β : Type} [DecidableEq κ] (f : κ → β) (k k' : κ) (v : β)
    (h : k' ≠ k) : fupd f k v k' = f k' := by
  simp [fupd, h]

@[simp] theorem pcOwner_start (rec : Record) : pcOwner (.start rec) = none := rfl
@[simp] theorem pcOwner_waitFut (fid : Nat) (rec : Record) (k : String) :
    pcOwner (.waitFut fid rec k) = none := rfl
@[simp] theorem pcOwner_waitSem (fid : Nat) (rec : Record) (k c : String) :
    pcOwner (.waitSem fid rec k c) = some (k, fid) := rfl
@[simp] theorem pcOwner_inChain (fid : Nat) (rec : Record) (k c : String) :
    pcOwner (.inChain fid rec k c) = some (k, fid) := rfl
@[simp] theorem pcOwner_done (rec : Record) (d : Option LookupResult) :
    pcOwner (.done rec d) = none := rfl

@[simp] theorem pcIsInChain_start (rec : Record) : pcIsInChain (.start rec) = false := rfl
@[simp] theorem pcIsInChain_waitFut (fid : Nat) (rec : Record) (k : String) :
    pcIsInChain (.waitFut fid rec k) = false := rfl
@[simp] theorem pcIsInChain_waitSem (fid : Nat) (rec : Record) (k c : String) :
    pcIsInChain (.waitSem fid rec k c) = false := rfl
@[simp] theorem pcIsInChain_inChain (fid : Nat) (rec : Record) (k c : String) :
    pcIsInChain (.inChain fid rec k c) = true := rfl
@[simp] theorem pcIsInChain_done (rec : Record) (d : Option LookupResult) :
    pcIsInChain (.done rec d) = false := rfl

theorem recordGet_set_self (r : Record) (k : String) (v : FieldVal) :
    recordGet (recordSet r k v) k = some v := by
  induction r with
  | nil => simp [recordSet, recordGet]
  | cons h t ih =>
    obtain ⟨k', v'⟩ := h
    by_cases hk : k' = k <;> simp [recordSet, recordGet, hk, ih]

theorem recordGet_set_ne (r : Record) (k k' : String) (v : FieldVal) (h : k' ≠ k) :
    recordGet (recordSet r k v) k' = recordGet r k' := by
  induction r with
  | nil => simp [recordSet, recordGet, h, Ne.symm h]
  | cons hd t ih =>
    obtain ⟨k₀, v₀⟩ := hd
    by_cases hk : k₀ = k
    · subst hk
      simp [recordSet, recordGet, h, Ne.symm h]
    · by_cases hk' : k₀ = k' <;> simp [recordSet, recordGet, h, Ne.symm h, hk, hk', ih]

theorem recordGet_recWith_ne (rec : Record) (v : LookupResult) (k : String)
    (h : k ≠ "_parsed") : recordGet (recWith rec v) k = recordGet rec k := by
  cases v with
  | empty => rfl
  | found f => exact recordGet_set_ne rec "_parsed" k _ h

theorem run_nil (env : SysEnv) (s : SysState) : run env s [] = s := rfl

theorem run_cons (env : SysEnv) (s : SysState) (i : Nat) (l : List Nat) :
    run env s (i :: l) = run env (stepAt env s i) l := rfl

theorem run_append (env : SysEnv) (s : SysState) (l₁ l₂ : List Nat) :
    run env s (l₁ ++ l₂) = run env (run env s l₁) l₂ :=
  List.foldl_append _ _ _ _

/-- Updating one point of a task table shifts a boolean-filter count by the
difference between the old and the new value of the predicate. -/
theorem length_filter_update {α : Type} (f : α → Bool) (t : Nat → α) (i : Nat) (a : α) :
    ∀ n, i < n →
      ((List.range n).filter (fun j => f (if j = i then a else t j))).length
        + (if f (t i) then 1 else 0)
      = ((List.range n).filter (fun j => f (t j))).length + (if f a then 1 else 0) := by
  intro n
  induction n with
  | zero => omega
  | succ n ih =>
    intro hi
    rw [List.range_succ, List.filter_append, List.filter_append,
      List.length_append, List.length_append, List.filter_singleton,
      List.filter_singleton]
    by_cases hin : i = n
    · subst hin
      have hpre : (List.range i).filter (fun j => f (if j = i then a else t j))
          = (List.range i).filter (fun j => f (t j)) := by
        apply List.filter_congr
        intro j hj
        have hj' : j ≠ i := by
          have := List.mem_range.mp hj; omega
        simp [hj']
      rw [hpre, if_pos rfl]
      by_cases hfa : f a <;> by_cases hft : f (t i) <;> simp [hfa, hft]
    · have hi' : i < n := by omega
      have hni : ¬ (n = i) := fun hx => hin hx.symm
      rw [if_neg hni]
      have h2 := ih hi'
      omega

/-- A duplicate-free list on which a boolean predicate holds for at most one
element selects at most one element. -/
theorem length_filter_le_one {l : List Nat} (hl : l.Nodup) (q : Nat → Bool)
    (h : ∀ i ∈ l, ∀ j ∈ l, q i = true → q j = true → i = j) :
    (l.filter q).length ≤ 1 := by
  induction l with
  | nil => simp
  | cons a t ih =>
    rw [List.nodup_cons] at hl
    by_cases hqa : q a
    · have ht : t.filter q = [] := by
        rw [List.filter_eq_nil_iff]
        intro j hj hqj
        have : j = a := h j (by simp [hj]) a (by simp) hqj hqa
        exact hl.1 (this ▸ hj)
      simp [List.filter, hqa, ht]
    · simp only [List.filter, hqa]
      exact ih hl.2 (fun i hi j hj hqi hqj =>
        h i (by simp [hi]) j (by simp [hj]) hqi hqj)

/-! ## Invariant: base case and preservation -/

theorem inv_init (env : SysEnv) (p : Nat) (recs : List Record) :
    Inv env p (initState p recs) := by
  constructor
  case junk_done =>
    intro i hi
    simp only [initState] at hi ⊢
    rw [List.getElem?_eq_none hi]
  case owner_unique =>
    intro i j k fi fj hi hj
    exfalso
    simp only [initState] at hi
    rcases hx : recs[i]? with _ | r <;> rw [hx] at hi <;> simp [pcOwner] at hi
  case owner_inflight =>
    intro i k fid hi
    exfalso
    simp only [initState] at hi
    rcases hx : recs[i]? with _ | r <;> rw [hx] at hi <;> simp [pcOwner] at hi
  case inflight_owner => intro k fid hk; simp [initState] at hk
  case inflight_fut => intro k fid hk; simp [initState] at hk
  case fut_lt => intro fid c hc; simp [initState] at hc
  case wait_fut =>
    intro i fid rec k hi
    exfalso
    simp only [initState] at hi
    rcases hx : recs[i]? with _ | r <;> rw [hx] at hi <;> simp at hi
  case cache_pos => intro k v hk; simp [initState] at hk
  case cache_chain => intro k v hk; simp [initState] at hk
  case fut_chain => intro fid k v hk; simp [initState] at hk
  case fut_cache => intro fid k v hk; simp [initState] at hk
  case owner_nocache =>
    intro i k fid hi
    exfalso
    simp only [initState] at hi
    rcases hx : recs[i]? with _ | r <;> rw [hx] at hi <;> simp [pcOwner] at hi
  case permits_bal =>
    have hz : inChainCount (initState p recs) = 0 := by
      unfold inChainCount
      rw [List.length_eq_zero]
      rw [List.filter_eq_nil_iff]
      intro j _
      simp only [initState]
      rcases hx : recs[j]? with _ | r <;> simp
    rw [hz]
    simp [initState]

/-- Preservation helper for steps that change only the program counter of the
stepped task: the previous and the new program counter own no key, the new
one does not execute the chain unless the old one did, and a new `waitFut`
targets a live future. -/
theorem inv_tasks_update {env : SysEnv} {p : Nat} {s : SysState} (h : Inv env p s)
    (i : Nat) (pc : TaskPC) (hn : i < s.ntasks)
    (howner : pcOwner pc = none)
    (hprev : pcOwner (s.tasks i) = none)
    (hchain : pcIsInChain pc = pcIsInChain (s.tasks i))
    (hwf : ∀ fid rec k, pc = .waitFut fid rec k →
      ∃ c, s.futures fid = some c ∧ c.key = k) :
    Inv env p { s with tasks := fun j => if j = i then pc else s.tasks j } := by
  constructor
  case junk_done =>
    intro j hj
    dsimp only at hj ⊢
    have hne : j ≠ i := by omega
    rw [if_neg hne]
    exact h.junk_done j hj
  case owner_unique =>
    intro a b k fa fb ha hb
    dsimp only at ha hb
    by_cases hai : a = i
    · rw [hai, if_pos rfl, howner] at ha; exact absurd ha (by simp)
    · by_cases hbi : b = i
      · rw [hbi, if_pos rfl, howner] at hb; exact absurd hb (by simp)
      · rw [if_neg hai] at ha; rw [if_neg hbi] at hb
        exact h.owner_unique a b k fa fb ha hb
  case owner_inflight =>
    intro a k fid ha
    dsimp only at ha ⊢
    by_cases hai : a = i
    · rw [hai, if_pos rfl, howner] at ha; exact absurd ha (by simp)
    · rw [if_neg hai] at ha; exact h.owner_inflight a k fid ha
  case inflight_owner =>
    intro k fid hk
    dsimp only at hk ⊢
    obtain ⟨a, ha⟩ := h.inflight_owner k fid hk
    refine ⟨a, ?_⟩
    have hai : a ≠ i := by
      intro hx; rw [hx, hprev] at ha; exact absurd ha (by simp)
    rw [if_neg hai]; exact ha
  case inflight_fut => exact h.inflight_fut
  case fut_lt => exact h.fut_lt
  case wait_fut =>
    intro a fid rec k ha
    dsimp only at ha ⊢
    by_cases hai : a = i
    · rw [hai, if_pos rfl] at ha
      exact hwf fid rec k ha
    · rw [if_neg hai] at ha
      exact h.wait_fut a fid rec k ha
  case cache_pos => exact h.cache_pos
  case cache_chain => exact h.cache_chain
  case fut_chain => exact h.fut_chain
  case fut_cache => exact h.fut_cache
  case owner_nocache =>
    intro a k fid ha
    dsimp only at ha ⊢
    by_cases hai : a = i
    · rw [hai, if_pos rfl, howner] at ha; exact absurd ha (by simp)
    · rw [if_neg hai] at ha; exact h.owner_nocache a k fid ha
  case permits_bal =>
    have hupd := length_filter_update pcIsInChain s.tasks i pc s.ntasks hn
    have hb := h.permits_bal
    unfold inChainCount at hb ⊢
    dsimp only at *
    rw [hchain] at hupd
    omega

/-- Preservation across the initiator registration step: the stepped task
found neither a cache entry nor a pending entry for `K`, registered future
`s.nextFut`, and moved to `waitSem` or `inChain`. -/
theorem inv_register {env : SysEnv} {p : Nat} {s : SysState} (h : Inv env p s)
    (i : Nat) (rec : Record) (K : String) (pcnew : TaskPC) (permits' : Nat)
    (log' : List (String × String))
    (hi : i < s.ntasks) (hpc : s.tasks i = .start rec)
    (hcache : s.cache K = none) (hinf : s.inflight K = none)
    (hpo : pcOwner pcnew = some (K, s.nextFut))
    (hbal : permits' + (if pcIsInChain pcnew then 1 else 0) = s.permits) :
    Inv env p { s with
      inflight := fupd s.inflight K (some s.nextFut)
      futures := fupd s.futures s.nextFut (some ⟨K, none⟩)
      nextFut := s.nextFut + 1
      permits := permits'
      chainLog := log'
      tasks := fun j => if j = i then pcnew else s.tasks j } := by
  constructor
  case junk_done =>
    intro j hj
    dsimp only at hj ⊢
    have hne : j ≠ i := by omega
    rw [if_neg hne]
    exact h.junk_done j hj
  case owner_unique =>
    intro a b k fa fb ha hb
    dsimp only at ha hb
    by_cases hai : a = i <;> by_cases hbi : b = i
    · rw [hai, hbi]
    · exfalso
      rw [hai, if_pos rfl, hpo] at ha
      rw [if_neg hbi] at hb
      obtain ⟨hk, _⟩ := Prod.mk.injEq .. ▸ (Option.some.injEq .. ▸ ha :)
      have hbK := h.owner_inflight b k fb hb
      rw [← hk, hinf] at hbK
      exact Option.noConfusion hbK
    · exfalso
      rw [hbi, if_pos rfl, hpo] at hb
      rw [if_neg hai] at ha
      obtain ⟨hk, _⟩ := Prod.mk.injEq .. ▸ (Option.some.injEq .. ▸ hb :)
      have haK := h.owner_inflight a k fa ha
      rw [← hk, hinf] at haK
      exact Option.noConfusion haK
    · rw [if_neg hai] at ha
      rw [if_neg hbi] at hb
      exact h.owner_unique a b k fa fb ha hb
  case owner_inflight =>
    intro a k fid ha
    dsimp only at ha ⊢
    by_cases hai : a = i
    · rw [hai, if_pos rfl, hpo] at ha
      obtain ⟨hk, hf⟩ := Prod.mk.injEq .. ▸ (Option.some.injEq .. ▸ ha :)
      rw [← hk, ← hf, fupd_same]
    · rw [if_neg hai] at ha
      have hold := h.owner_inflight a k fid ha
      by_cases hkK : k = K
      · rw [hkK, hinf] at hold; exact Option.noConfusion hold
      · rw [fupd_other _ _ _ _ hkK]; exact hold
  case inflight_owner =>
    intro k fid hk
    dsimp only at hk ⊢
    by_cases hkK : k = K
    · subst hkK
      rw [fupd_same] at hk
      obtain rfl : s.nextFut = fid := Option.some.injEq .. ▸ hk
      exact ⟨i, by rw [if_pos rfl, hpo]⟩
    · rw [fupd_other _ _ _ _ hkK] at hk
      obtain ⟨a, ha⟩ := h.inflight_owner k fid hk
      have hai : a ≠ i := by
        intro hx; rw [hx, hpc] at ha; exact Option.noConfusion ha
      exact ⟨a, by rw [if_neg hai]; exact ha⟩
  case inflight_fut =>
    intro k fid hk
    dsimp only at hk ⊢
    by_cases hkK : k = K
    · subst hkK
      rw [fupd_same] at hk
      obtain rfl : s.nextFut = fid := Option.some.injEq .. ▸ hk
      rw [fupd_same]
    · rw [fupd_other _ _ _ _ hkK] at hk
      have hold := h.inflight_fut k fid hk
      have hlt := h.fut_lt fid _ hold
      rw [fupd_other _ _ _ _ (by omega : fid ≠ s.nextFut)]
      exact hold
  case fut_lt =>
    intro fid c hc
    dsimp only at hc ⊢
    by_cases hf : fid = s.nextFut
    · omega
    · rw [fupd_other _ _ _ _ hf] at hc
      have := h.fut_lt fid c hc
      omega
  case wait_fut =>
    intro a fid rec' k ha
    dsimp only at ha ⊢
    by_cases hai : a = i
    · exfalso
      rw [hai, if_pos rfl] at ha
      rw [ha] at hpo
      exact Option.noConfusion hpo
    · rw [if_neg hai] at ha
      obtain ⟨c, hc, hck⟩ := h.wait_fut a fid rec' k ha
      have hlt := h.fut_lt fid c hc
      exact ⟨c, by rw [fupd_other _ _ _ _ (by omega : fid ≠ s.nextFut)]; exact hc, hck⟩
  case cache_pos => exact h.cache_pos
  case cache_chain => exact h.cache_chain
  case fut_chain =>
    intro fid k v hf
    dsimp only at hf
    by_cases hfF : fid = s.nextFut
    · exfalso
      rw [hfF, fupd_same] at hf
      have := (FutCell.mk.injEq .. ▸ (Option.some.injEq .. ▸ hf :)).2
      exact Option.noConfusion this
    · rw [fupd_other _ _ _ _ hfF] at hf
      exact h.fut_chain fid k v hf
  case fut_cache =>
    intro fid k v hf hv
    dsimp only at hf ⊢
    by_cases hfF : fid = s.nextFut
    · exfalso
      rw [hfF, fupd_same] at hf
      have := (FutCell.mk.injEq .. ▸ (Option.some.injEq .. ▸ hf :)).2
      exact Option.noConfusion this
    · rw [fupd_other _ _ _ _ hfF] at hf
      exact h.fut_cache fid k v hf hv
  case owner_nocache =>
    intro a k fid ha
    dsimp only at ha ⊢
    by_cases hai : a = i
    · rw [hai, if_pos rfl, hpo] at ha
      obtain ⟨hk, _⟩ := Prod.mk.injEq .. ▸ (Option.some.injEq .. ▸ ha :)
      rw [← hk]; exact hcache
    · rw [if_neg hai] at ha
      exact h.owner_nocache a k fid ha
  case permits_bal =>
    have hupd := length_filter_update pcIsInChain s.tasks i pcnew s.ntasks hi
    have hb := h.permits_bal
    unfold inChainCount at hb ⊢
    dsimp only at *
    rw [hpc] at hupd
    simp only [pcIsInChain_start, if_neg] at hupd
    rcases hx : pcIsInChain pcnew with _ | _ <;> rw [hx] at hupd hbal <;>
      simp at hupd hbal <;> omega

/-- Preservation across the semaphore acquisition step of a registered
initiator (`waitSem` to `inChain`): ownership is unchanged. -/
theorem inv_acquire {env : SysEnv} {p : Nat} {s : SysState} (h : Inv env p s)
    (i fid : Nat) (rec : Record) (key country : String)
    (log' : List (String × String))
    (hi : i < s.ntasks) (hpc : s.tasks i = .waitSem fid rec key country)
    (hp : 0 < s.permits) :
    Inv env p { s with
      permits := s.permits - 1
      chainLog := log'
      tasks := fun j => if j = i then .inChain fid rec key country else s.tasks j } := by
  have hsame : ∀ a, pcOwner (if a = i then TaskPC.inChain fid rec key country else s.tasks a)
      = pcOwner (s.tasks a) := by
    intro a
    by_cases hai : a = i
    · rw [if_pos hai, hai, hpc]; rfl
    · rw [if_neg hai]
  constructor
  case junk_done =>
    intro j hj
    dsimp only at hj ⊢
    have hne : j ≠ i := by omega
    rw [if_neg hne]
    exact h.junk_done j hj
  case owner_unique =>
    intro a b k fa fb ha hb
    dsimp only at ha hb
    rw [hsame] at ha hb
    exact h.owner_unique a b k fa fb ha hb
  case owner_inflight =>
    intro a k f ha
    dsimp only at ha ⊢
    rw [hsame] at ha
    exact h.owner_inflight a k f ha
  case inflight_owner =>
    intro k f hk
    dsimp only at hk ⊢
    obtain ⟨a, ha⟩ := h.inflight_owner k f hk
    exact ⟨a, by rw [hsame]; exact ha⟩
  case inflight_fut => exact h.inflight_fut
  case fut_lt => exact h.fut_lt
  case wait_fut =>
    intro a f rec' k ha
    dsimp only at ha ⊢
    by_cases hai : a = i
    · rw [hai, if_pos rfl] at ha; exact TaskPC.noConfusion ha
    · rw [if_neg hai] at ha
      exact h.wait_fut a f rec' k ha
  case cache_pos => exact h.cache_pos
  case cache_chain => exact h.cache_chain
  case fut_chain => exact h.fut_chain
  case fut_cache => exact h.fut_cache
  case owner_nocache =>
    intro a k f ha
    dsimp only at ha ⊢
    rw [hsame] at ha
    exact h.owner_nocache a k f ha
  case permits_bal =>
    have hupd := length_filter_update pcIsInChain s.tasks i
      (.inChain fid rec key country) s.ntasks hi
    have hb := h.permits_bal
    unfold inChainCount at hb ⊢
    dsimp only at *
    rw [hpc] at hupd
    simp only [pcIsInChain_waitSem, pcIsInChain_inChain] at hupd
    simp at hupd
    omega

/-- Preservation across the completion step of an initiator: the outcome `P`
is cached when non-empty, the future is resolved with `P`, the pending entry
is popped, and the permit is released — on the normal return path
(`P` the chain result) as well as on the unexpected-error path (`P = {}`). -/
theorem inv_complete {env : SysEnv} {p : Nat} {s : SysState} (h : Inv env p s)
    (i fid : Nat) (rec : Record) (key country : String) (P : LookupResult)
    (pcnew : TaskPC) (cache' : String → Option LookupResult)
    (hi : i < s.ntasks) (hpc : s.tasks i = .inChain fid rec key country)
    (hP : P ≠ .empty → ∃ c, env key c = .ok P)
    (hpo : pcOwner pcnew = none) (hic : pcIsInChain pcnew = false)
    (hnw : ∀ f r k, pcnew ≠ .waitFut f r k)
    (hcacheF : ∀ f0, P = .found f0 → cache' = fupd s.cache key (some P))
    (hcacheE : P = .empty → cache' = s.cache) :
    Inv env p { s with
      cache := cache'
      futures := fupd s.futures fid (some ⟨key, some P⟩)
      inflight := fupd s.inflight key none
      permits := s.permits + 1
      tasks := fun j => if j = i then pcnew else s.tasks j } := by
  have hio : pcOwner (s.tasks i) = some (key, fid) := by rw [hpc]; rfl
  have hinf : s.inflight key = some fid := h.owner_inflight i key fid hio
  have hfut : s.futures fid = some ⟨key, none⟩ := h.inflight_fut key fid hinf
  have hflt : fid < s.nextFut := h.fut_lt fid _ hfut
  have hnocache : s.cache key = none := h.owner_nocache i key fid hio
  have hotherK : ∀ a k f, a ≠ i → pcOwner (s.tasks a) = some (k, f) → k ≠ key := by
    intro a k f hai ha hk
    exact hai (h.owner_unique a i k f fid ha (hk ▸ hio))
  have hfound : P ≠ .empty → ∃ f0, P = .found f0 := by
    intro hPe
    cases P with
    | empty => exact absurd rfl hPe
    | found f0 => exact ⟨f0, rfl⟩
  have hcases : ∀ k, cache' k = s.cache k ∨ (k = key ∧ cache' k = some P ∧ P ≠ .empty) := by
    intro k
    by_cases hPe : P = .empty
    · left; rw [hcacheE hPe]
    · obtain ⟨f0, hPf⟩ := hfound hPe
      by_cases hk : k = key
      · right
        exact ⟨hk, by rw [hcacheF f0 hPf]; subst hk; rw [fupd_same], hPe⟩
      · left; rw [hcacheF f0 hPf, fupd_other _ _ _ _ hk]
  constructor
  case junk_done =>
    intro j hj
    dsimp only at hj ⊢
    have hne : j ≠ i := by omega
    rw [if_neg hne]
    exact h.junk_done j hj
  case owner_unique =>
    intro a b k fa fb ha hb
    dsimp only at ha hb
    by_cases hai : a = i
    · rw [hai, if_pos rfl, hpo] at ha; exact Option.noConfusion ha
    · by_cases hbi : b = i
      · rw [hbi, if_pos rfl, hpo] at hb; exact Option.noConfusion hb
      · rw [if_neg hai] at ha; rw [if_neg hbi] at hb
        exact h.owner_unique a b k fa fb ha hb
  case owner_inflight =>
    intro a k f ha
    dsimp only at ha ⊢
    by_cases hai : a = i
    · rw [hai, if_pos rfl, hpo] at ha; exact Option.noConfusion ha
    · rw [if_neg hai] at ha
      have hkK := hotherK a k f hai ha
      rw [fupd_other _ _ _ _ hkK]
      exact h.owner_inflight a k f ha
  case inflight_owner =>
    intro k f hk
    dsimp only at hk ⊢
    by_cases hkK : k = key
    · exfalso; rw [hkK, fupd_same] at hk; exact Option.noConfusion hk
    · rw [fupd_other _ _ _ _ hkK] at hk
      obtain ⟨a, ha⟩ := h.inflight_owner k f hk
      have hai : a ≠ i := by
        intro hx
        rw [hx, hio] at ha
        exact hkK (congrArg Prod.fst (Option.some.inj ha)).symm
      exact ⟨a, by rw [if_neg hai]; exact ha⟩
  case inflight_fut =>
    intro k f hk
    dsimp only at hk ⊢
    by_cases hkK : k = key
    · exfalso; rw [hkK, fupd_same] at hk; exact Option.noConfusion hk
    · rw [fupd_other _ _ _ _ hkK] at hk
      have hold := h.inflight_fut k f hk
      have hff : f ≠ fid := by
        intro hx
        rw [hx, hfut] at hold
        exact hkK (congrArg FutCell.key (Option.some.inj hold)).symm
      rw [fupd_other _ _ _ _ hff]
      exact hold
  case fut_lt =>
    intro f c hc
    dsimp only at hc ⊢
    by_cases hff : f = fid
    · omega
    · rw [fupd_other _ _ _ _ hff] at hc
      exact h.fut_lt f c hc
  case wait_fut =>
    intro a f rec' k ha
    dsimp only at ha ⊢
    by_cases hai : a = i
    · exfalso
      rw [hai, if_pos rfl] at ha
      exact hnw f rec' k ha
    · rw [if_neg hai] at ha
      obtain ⟨c, hc, hck⟩ := h.wait_fut a f rec' k ha
      by_cases hff : f = fid
      · refine ⟨⟨key, some P⟩, by rw [hff, fupd_same], ?_⟩
        rw [hff, hfut] at hc
        have hcc : (⟨key, none⟩ : FutCell) = c := Option.some.inj hc
        rw [← hcc] at hck
        exact hck
      · exact ⟨c, by rw [fupd_other _ _ _ _ hff]; exact hc, hck⟩
  case cache_pos =>
    intro k v hk
    rcases hcases k with hck | ⟨_, hck, hPne⟩
    · dsimp only at hk; rw [hck] at hk; exact h.cache_pos k v hk
    · dsimp only at hk
      rw [hck] at hk
      obtain rfl : P = v := Option.some.inj hk
      exact hPne
  case cache_chain =>
    intro k v hk
    dsimp only at hk
    rcases hcases k with hck | ⟨hkK, hck, hPne⟩
    · rw [hck] at hk; exact h.cache_chain k v hk
    · rw [hck] at hk
      obtain rfl : P = v := Option.some.inj hk
      rw [hkK]
      exact hP hPne
  case fut_chain =>
    intro f k v hf
    dsimp only at hf
    by_cases hff : f = fid
    · rw [hff, fupd_same] at hf
      rw [Option.some.injEq, FutCell.mk.injEq, Option.some.injEq] at hf
      obtain ⟨rfl, rfl⟩ := hf
      exact fun hv => hP hv
    · rw [fupd_other _ _ _ _ hff] at hf
      exact h.fut_chain f k v hf
  case fut_cache =>
    intro f k v hf hv
    dsimp only at hf ⊢
    by_cases hff : f = fid
    · rw [hff, fupd_same] at hf
      rw [Option.some.injEq, FutCell.mk.injEq, Option.some.injEq] at hf
      obtain ⟨rfl, rfl⟩ := hf
      rcases hcases key with hck | ⟨_, hck, _⟩
      · exfalso
        obtain ⟨f0, hPf⟩ := hfound hv
        rw [hcacheF f0 hPf, fupd_same, hnocache] at hck
        exact Option.noConfusion hck
      · exact hck
    · rw [fupd_other _ _ _ _ hff] at hf
      have hold := h.fut_cache f k v hf hv
      rcases hcases k with hck | ⟨hkK, hck, _⟩
      · rw [hck]; exact hold
      · exfalso
        rw [hkK, hnocache] at hold
        exact Option.noConfusion hold
  case owner_nocache =>
    intro a k f ha
    dsimp only at ha ⊢
    by_cases hai : a = i
    · rw [hai, if_pos rfl, hpo] at ha; exact Option.noConfusion ha
    · rw [if_neg hai] at ha
      have hkK := hotherK a k f hai ha
      have hold := h.owner_nocache a k f ha
      rcases hcases k with hck | ⟨hkK', _, _⟩
      · rw [hck]; exact hold
      · exact absurd hkK' hkK
  case permits_bal =>
    have hupd := length_filter_update pcIsInChain s.tasks i pcnew s.ntasks hi
    have hb := h.permits_bal
    unfold inChainCount at hb ⊢
    dsimp only at *
    rw [hpc] at hupd
    simp only [pcIsInChain_inChain, hic] at hupd
    simp at hupd
    omega

/-- Preservation across a waiter draining a future resolved with a non-empty
result: the waiter re-writes the cache entry (with the value it already
holds) and returns. -/
theorem inv_drain {env : SysEnv} {p : Nat} {s : SysState} (h : Inv env p s)
    (i fid : Nat) (rec : Record) (key : String) (parsed : LookupResult)
    (f0 : AddressFields)
    (hi : i < s.ntasks) (hpc : s.tasks i = .waitFut fid rec key)
    (hfut : s.futures fid = some ⟨key, some parsed⟩)
    (hfound : parsed = .found f0) :
    Inv env p { s with
      cache := fupd s.cache key (some parsed)
      tasks := fun j => if j = i then
        .done (recordSet rec "_parsed" (.res parsed)) (some parsed) else s.tasks j } := by
  have hne : parsed ≠ .empty := by rw [hfound]; simp
  have hcache : s.cache key = some parsed := h.fut_cache fid key parsed hfut hne
  have hsamecache : ∀ k, fupd s.cache key (some parsed) k = s.cache k := by
    intro k
    by_cases hk : k = key
    · rw [hk, fupd_same, hcache]
    · rw [fupd_other _ _ _ _ hk]
  constructor
  case junk_done =>
    intro j hj
    dsimp only at hj ⊢
    have hjn : j ≠ i := by omega
    rw [if_neg hjn]
    exact h.junk_done j hj
  case owner_unique =>
    intro a b k fa fb ha hb
    dsimp only at ha hb
    by_cases hai : a = i
    · rw [hai, if_pos rfl] at ha; exact Option.noConfusion ha
    · by_cases hbi : b = i
      · rw [hbi, if_pos rfl] at hb; exact Option.noConfusion hb
      · rw [if_neg hai] at ha; rw [if_neg hbi] at hb
        exact h.owner_unique a b k fa fb ha hb
  case owner_inflight =>
    intro a k f ha
    dsimp only at ha ⊢
    by_cases hai : a = i
    · rw [hai, if_pos rfl] at ha; exact Option.noConfusion ha
    · rw [if_neg hai] at ha; exact h.owner_inflight a k f ha
  case inflight_owner =>
    intro k f hk
    dsimp only at hk ⊢
    obtain ⟨a, ha⟩ := h.inflight_owner k f hk
    have hai : a ≠ i := by
      intro hx; rw [hx, hpc] at ha; exact Option.noConfusion ha
    exact ⟨a, by rw [if_neg hai]; exact ha⟩
  case inflight_fut => exact h.inflight_fut
  case fut_lt => exact h.fut_lt
  case wait_fut =>
    intro a f rec' k ha
    dsimp only at ha ⊢
    by_cases hai : a = i
    · rw [hai, if_pos rfl] at ha; exact TaskPC.noConfusion ha
    · rw [if_neg hai] at ha
      exact h.wait_fut a f rec' k ha
  case cache_pos =>
    intro k v hk
    dsimp only at hk
    rw [hsamecache] at hk
    exact h.cache_pos k v hk
  case cache_chain =>
    intro k v hk
    dsimp only at hk
    rw [hsamecache] at hk
    exact h.cache_chain k v hk
  case fut_chain => exact h.fut_chain
  case fut_cache =>
    intro f k v hf hv
    dsimp only at hf ⊢
    rw [hsamecache]
    exact h.fut_cache f k v hf hv
  case owner_nocache =>
    intro a k f ha
    dsimp only at ha ⊢
    by_cases hai : a = i
    · rw [hai, if_pos rfl] at ha; exact Option.noConfusion ha
    · rw [if_neg hai] at ha
      rw [hsamecache]
      exact h.owner_nocache a k f ha
  case permits_bal =>
    have hupd := length_filter_update pcIsInChain s.tasks i
      (.done (recordSet rec "_parsed" (.res parsed)) (some parsed)) s.ntasks hi
    have hb := h.permits_bal
    unfold inChainCount at hb ⊢
    dsimp only at *
    rw [hpc] at hupd
    simp only [pcIsInChain_waitFut, pcIsInChain_done] at hupd
    simp at hupd
    omega

/-- The invariant is preserved by every scheduler step. -/
theorem inv_step (env : SysEnv) (p : Nat) (s : SysState) (i : Nat) (h : Inv env p s) :
    Inv env p (stepAt env s i) := by
  by_cases hi : i < s.ntasks
  · cases hpc : s.tasks i with
    | start rec =>
      by_cases hrej : recordCep rec = "" ∨ (recordCep rec).length < 5
      · -- rejected key: return the record unchanged
        have hstep : stepAt env s i = { s with
            tasks := fun j => if j = i then .done rec none else s.tasks j } := by
          simp [stepAt, hi, hpc, stepTask, hrej]
        rw [hstep]
        refine inv_tasks_update h i _ hi rfl (by rw [hpc]; rfl) (by rw [hpc]; rfl) ?_
        intro f r k hx; exact TaskPC.noConfusion hx
      · cases hcache : s.cache (recordCep rec) with
        | some v =>
          -- cache hit
          have hstep : stepAt env s i = { s with
              tasks := fun j => if j = i then
                .done (recordSet rec "_parsed" (.res v)) (some v) else s.tasks j } := by
            simp [stepAt, hi, hpc, stepTask, hrej, hcache]
          rw [hstep]
          refine inv_tasks_update h i _ hi rfl (by rw [hpc]; rfl) (by rw [hpc]; rfl) ?_
          intro f r k hx; exact TaskPC.noConfusion hx
        | none =>
          cases hinf : s.inflight (recordCep rec) with
          | some fid =>
            -- coalesce on the in-flight future
            have hstep : stepAt env s i = { s with
                tasks := fun j => if j = i then
                  .waitFut fid rec (recordCep rec) else s.tasks j } := by
              simp [stepAt, hi, hpc, stepTask, hrej, hcache, hinf]
            rw [hstep]
            refine inv_tasks_update h i _ hi rfl (by rw [hpc]; rfl) (by rw [hpc]; rfl) ?_
            intro f r k hx
            injection hx with h1 h2 h3
            subst h1; subst h3
            exact ⟨⟨recordCep rec, none⟩, h.inflight_fut _ _ hinf, rfl⟩
          | none =>
            -- initiator: register, then acquire or park at the semaphore
            by_cases hperm : 0 < s.permits
            · have hstep : stepAt env s i = { s with
                  inflight := fupd s.inflight (recordCep rec) (some s.nextFut)
                  futures := fupd s.futures s.nextFut (some ⟨recordCep rec, none⟩)
                  nextFut := s.nextFut + 1
                  permits := s.permits - 1
                  chainLog := s.chainLog ++ [(recordCep rec, countryOf rec)]
                  tasks := fun j => if j = i then
                    .inChain s.nextFut rec (recordCep rec) (countryOf rec)
                    else s.tasks j } := by
                simp [stepAt, hi, hpc, stepTask, hrej, hcache, hinf, hperm]
              rw [hstep]
              refine inv_register h i rec (recordCep rec) _ _ _ hi hpc hcache hinf rfl ?_
              simp only [pcIsInChain_inChain, if_pos]
              omega
            · have hstep : stepAt env s i = { s with
                  inflight := fupd s.inflight (recordCep rec) (some s.nextFut)
                  futures := fupd s.futures s.nextFut (some ⟨recordCep rec, none⟩)
                  nextFut := s.nextFut + 1
                  tasks := fun j => if j = i then
                    .waitSem s.nextFut rec (recordCep rec) (countryOf rec)
                    else s.tasks j } := by
                simp [stepAt, hi, hpc, stepTask, hrej, hcache, hinf, hperm]
              rw [hstep]
              have hx := inv_register h i rec (recordCep rec)
                (.waitSem s.nextFut rec (recordCep rec) (countryOf rec))
                s.permits s.chainLog hi hpc hcache hinf rfl
                (by simp only [pcIsInChain_waitSem]; simp)
              exact hx
    | waitFut fid rec key =>
      cases hfu : s.futures fid with
      | none =>
        have hstep : stepAt env s i = s := by
          simp [stepAt, hi, hpc, stepTask, hfu]
        rw [hstep]; exact h
      | some c =>
        obtain ⟨c', hc', hk'⟩ := h.wait_fut i fid rec key hpc
        rw [hfu] at hc'
        have hcc : c = c' := Option.some.inj hc'
        subst hcc
        cases hcv : c.val with
        | none =>
          have hstep : stepAt env s i = s := by
            simp [stepAt, hi, hpc, stepTask, hfu, hcv]
          rw [hstep]; exact h
        | some parsed =>
          have hcell : c = ⟨key, some parsed⟩ := by
            obtain ⟨a, b⟩ := c
            dsimp only at hk' hcv ⊢
            rw [hk', hcv]
          subst hcell
          cases parsed with
          | empty =>
            have hstep : stepAt env s i = { s with
                tasks := fun j => if j = i then .done rec (some .empty) else s.tasks j } := by
              simp [stepAt, hi, hpc, stepTask, hfu]
            rw [hstep]
            refine inv_tasks_update h i _ hi rfl (by rw [hpc]; rfl) (by rw [hpc]; rfl) ?_
            intro f r k hx; exact TaskPC.noConfusion hx
          | found f0 =>
            have hstep : stepAt env s i = { s with
                cache := fupd s.cache key (some (.found f0))
                tasks := fun j => if j = i then
                  .done (recordSet rec "_parsed" (.res (.found f0))) (some (.found f0))
                  else s.tasks j } := by
              simp [stepAt, hi, hpc, stepTask, hfu]
            rw [hstep]
            exact inv_drain h i fid rec key (.found f0) f0 hi hpc hfu rfl
    | waitSem fid rec key country =>
      by_cases hperm : 0 < s.permits
      · have hstep : stepAt env s i = { s with
            permits := s.permits - 1
            chainLog := s.chainLog ++ [(key, country)]
            tasks := fun j => if j = i then .inChain fid rec key country else s.tasks j } := by
          simp [stepAt, hi, hpc, stepTask, hperm]
        rw [hstep]
        exact inv_acquire h i fid rec key country _ hi hpc hperm
      · have hstep : stepAt env s i = s := by
          simp [stepAt, hi, hpc, stepTask, hperm]
        rw [hstep]; exact h
    | inChain fid rec key country =>
      have hio : pcOwner (s.tasks i) = some (key, fid) := by rw [hpc]; rfl
      have hinf : s.inflight key = some fid := h.owner_inflight i key fid hio
      have hfut : s.futures fid = some ⟨key, none⟩ := h.inflight_fut key fid hinf
      cases henv : env key country with
      | ok parsed =>
        cases parsed with
        | empty =>
          have hstep : stepAt env s i = { s with
              futures := fupd s.futures fid (some ⟨key, some .empty⟩)
              inflight := fupd s.inflight key none
              permits := s.permits + 1
              tasks := fun j => if j = i then
                .done rec (some .empty) else s.tasks j } := by
            simp [stepAt, hi, hpc, stepTask, henv, hinf, resolveFut, hfut, recWith]
          rw [hstep]
          exact inv_complete h i fid rec key country .empty _ s.cache hi hpc
            (fun hv => absurd rfl hv) rfl rfl
            (fun f r k hx => TaskPC.noConfusion hx)
            (fun f0 hx => absurd hx (by simp))
            (fun _ => rfl)
        | found f0 =>
          have hstep : stepAt env s i = { s with
              cache := fupd s.cache key (some (.found f0))
              futures := fupd s.futures fid (some ⟨key, some (.found f0)⟩)
              inflight := fupd s.inflight key none
              permits := s.permits + 1
              tasks := fun j => if j = i then
                .done (recordSet rec "_parsed" (.res (.found f0))) (some (.found f0))
                else s.tasks j } := by
            simp [stepAt, hi, hpc, stepTask, henv, hinf, resolveFut, hfut, recWith]
          rw [hstep]
          exact inv_complete h i fid rec key country (.found f0) _
            (fupd s.cache key (some (.found f0))) hi hpc
            (fun _ => ⟨country, henv⟩) rfl rfl
            (fun f r k hx => TaskPC.noConfusion hx)
            (fun f1 _ => rfl)
            (fun hx => absurd hx (by simp))
      | err =>
        have hstep : stepAt env s i = { s with
            futures := fupd s.futures fid (some ⟨key, some .empty⟩)
            inflight := fupd s.inflight key none
            permits := s.permits + 1
            tasks := fun j => if j = i then .done rec (some .empty) else s.tasks j } := by
          simp [stepAt, hi, hpc, stepTask, henv, hinf, resolveFut, hfut]
        rw [hstep]
        exact inv_complete h i fid rec key country .empty _ s.cache hi hpc
          (fun hv => absurd rfl hv) rfl rfl
          (fun f r k hx => TaskPC.noConfusion hx)
          (fun f0 hx => absurd hx (by simp))
          (fun _ => rfl)
    | done rec d =>
      have hstep : stepAt env s i = s := by
        simp [stepAt, hi, hpc, stepTask]
      rw [hstep]; exact h
  · have hstep : stepAt env s i = s := by
      simp [stepAt, hi]
    rw [hstep]; exact h

/-- The invariant holds in every state reached by a schedule. -/
theorem inv_run (env : SysEnv) (p : Nat) (s : SysState) (sched : List Nat)
    (h : Inv env p s) : Inv env p (run env s sched) := by
  induction sched generalizing s with
  | nil => exact h
  | cons i l ih => exact ih _ (inv_step env p s i h)

/-- The invariant holds in every reachable state of a batch. -/
theorem inv_reach (env : SysEnv) (p : Nat) (recs : List Record) (sched : List Nat) :
    Inv env p (run env (initState p recs) sched) :=
  inv_run env p _ sched (inv_init env p recs)

/-! ## Single-flight scenario lemmas -/

theorem recAt_get (recs : List Record) (j : Nat) (hj : j < recs.length) :
    recs[j]? = some (recAt recs j) := by
  unfold recAt
  rcases hx : recs[j]? with _ | r
  · exfalso; rw [List.getElem?_eq_none_iff] at hx; omega
  · simp [hx]

theorem initState_tasks_lt (p : Nat) (recs : List Record) (j : Nat)
    (hj : j < recs.length) : (initState p recs).tasks j = .start (recAt recs j) := by
  simp only [initState]
  rw [recAt_get recs j hj]

theorem initState_tasks_ge (p : Nat) (recs : List Record) (j : Nat)
    (hj : recs.length ≤ j) : (initState p recs).tasks j = .done [] none := by
  simp only [initState]
  rw [List.getElem?_eq_none hj]

/-- The first arrival: the first-scheduled task of the batch becomes the
initiator, registers future `0`, takes the permit and enters the chain. -/
theorem arrival_first (env : SysEnv) (p : Nat) (recs : List Record) (key : String)
    (o : Nat) (ho : o < recs.length) (hp : 1 ≤ p)
    (hkey : recordCep (recAt recs o) = key) (hlen : 5 ≤ key.length) :
    ArrivalState recs key (countryOf (recAt recs o)) p o (fun _ => false)
      (stepAt env (initState p recs) o) := by
  have hpc : (initState p recs).tasks o = .start (recAt recs o) :=
    initState_tasks_lt p recs o ho
  have hrej : ¬(key = "" ∨ key.length < 5) := by
    push_neg
    refine ⟨?_, by omega⟩
    intro hx; rw [hx] at hlen; simp at hlen
  have hio : o < (initState p recs).ntasks := by simpa [initState] using ho
  have hpp : 0 < p := hp
  have hstep : stepAt env (initState p recs) o = {
      cache := fun _ => none
      inflight := fupd (fun _ => none) key (some 0)
      futures := fupd (fun _ => none) 0 (some ⟨key, none⟩)
      nextFut := 1
      permits := p - 1
      ntasks := recs.length
      tasks := fun j => if j = o then
          .inChain 0 (recAt recs o) key (countryOf (recAt recs o))
        else (initState p recs).tasks j
      chainLog := [(key, countryOf (recAt recs o))] } := by
    simp [stepAt, stepTask, initState, recAt_get recs o ho, ho, hkey, hrej, hpp]
  rw [hstep]
  constructor
  case hn => rfl
  case hfid => rfl
  case hperm => rfl
  case hlog => rfl
  case hcache => intro k; rfl
  case hinf => intro k; rfl
  case hfut => intro f; rfl
  case howner => simp
  case hwait =>
    intro j hj hjo
    dsimp only
    rw [if_neg hjo, if_neg (by simp : ¬ (false = true))]
    exact initState_tasks_lt p recs j hj
  case hjunk =>
    intro j hj
    dsimp only
    have hjo : j ≠ o := by omega
    rw [if_neg hjo]
    exact initState_tasks_ge p recs j hj

theorem arrival_congr {recs : List Record} {key c : String} {p o : Nat}
    {st1 st2 : Nat → Bool} {s : SysState} (h12 : ∀ j, st1 j = st2 j)
    (ha : ArrivalState recs key c p o st1 s) :
    ArrivalState recs key c p o st2 s := by
  constructor
  case hn => exact ha.hn
  case hfid => exact ha.hfid
  case hperm => exact ha.hperm
  case hlog => exact ha.hlog
  case hcache => exact ha.hcache
  case hinf => exact ha.hinf
  case hfut => exact ha.hfut
  case howner => exact ha.howner
  case hwait =>
    intro j hj hjo
    rw [← h12 j]
    exact ha.hwait j hj hjo
  case hjunk => exact ha.hjunk

/-- A later arrival while the future is pending: the task coalesces onto
future `0` and the globals do not change. -/
theorem arrival_step (env : SysEnv) (recs : List Record) (key c : String)
    (p o : Nat) (started : Nat → Bool) (s : SysState)
    (ha : ArrivalState recs key c p o started s)
    (j : Nat) (hj : j < recs.length) (hjo : j ≠ o) (hsj : started j = false)
    (hkey : recordCep (recAt recs j) = key) (hlen : 5 ≤ key.length) :
    ArrivalState recs key c p o (fupd started j true) (stepAt env s j) := by
  have hpc : s.tasks j = .start (recAt recs j) := by
    rw [ha.hwait j hj hjo, hsj]; simp
  have hrej : ¬(key = "" ∨ key.length < 5) := by
    push_neg
    refine ⟨?_, by omega⟩
    intro hx; rw [hx] at hlen; simp at hlen
  have hjt : j < s.ntasks := by rw [ha.hn]; exact hj
  have hstep : stepAt env s j = { s with
      tasks := fun i => if i = j then .waitFut 0 (recAt recs j) key else s.tasks i } := by
    simp [stepAt, hjt, hpc, stepTask, hkey, hrej, ha.hcache key, ha.hinf key]
  rw [hstep]
  constructor
  case hn => exact ha.hn
  case hfid => exact ha.hfid
  case hperm => exact ha.hperm
  case hlog => exact ha.hlog
  case hcache => exact ha.hcache
  case hinf => exact ha.hinf
  case hfut => exact ha.hfut
  case howner =>
    dsimp only
    rw [if_neg (fun hx => hjo hx.symm)]
    exact ha.howner
  case hwait =>
    intro j' hj' hjo'
    dsimp only
    by_cases hx : j' = j
    · subst hx
      rw [if_pos rfl, fupd_same]
      simp
    · rw [if_neg hx, fupd_other _ _ _ _ hx]
      exact ha.hwait j' hj' hjo'
  case hjunk =>
    intro j' hj'
    dsimp only
    have hx : j' ≠ j := by omega
    rw [if_neg hx]
    exact ha.hjunk j' hj'

/-- Running any duplicate-free list of fresh batch members extends the set of
arrived waiters accordingly. -/
theorem arrival_run (env : SysEnv) (recs : List Record) (key c : String)
    (p o : Nat) (hlen : 5 ≤ key.length) :
    ∀ (l : List Nat) (started : Nat → Bool) (s : SysState),
    ArrivalState recs key c p o started s →
    l.Nodup → o ∉ l →
    (∀ j ∈ l, j < recs.length ∧ started j = false) →
    (∀ j ∈ l, recordCep (recAt recs j) = key) →
    ArrivalState recs key c p o (fun j => started j || decide (j ∈ l)) (run env s l)
  | [], started, s, ha, _, _, _, _ => by
    apply arrival_congr (fun j => by simp) ha
  | a :: l, started, s, ha, hnd, hno, hlt, hkeys => by
    rw [List.nodup_cons] at hnd
    have haj := hlt a (by simp)
    have hao : a ≠ o := by
      intro hx; exact hno (by simp [← hx])
    have hstep := arrival_step env recs key c p o started s ha a haj.1 hao haj.2
      (hkeys a (by simp)) hlen
    have hrec := arrival_run env recs key c p o hlen l (fupd started a true)
      (stepAt env s a) hstep hnd.2
      (fun hx => hno (by simp [hx]))
      (fun j hjl => by
        have hja : j ≠ a := fun hx => hnd.1 (hx ▸ hjl)
        rw [fupd_other _ _ _ _ hja]
        exact hlt j (by simp [hjl]))
      (fun j hjl => hkeys j (by simp [hjl]))
    rw [run_cons]
    apply arrival_congr ?_ hrec
    intro j
    by_cases hja : j = a
    · subst hja
      rw [fupd_same]
      simp
    · rw [fupd_other _ _ _ _ hja]
      simp [List.mem_cons, hja]

/-- The initiator's completion step: the outcome is delivered, cached when
non-empty, the future resolved, the pending entry popped, the permit
released. -/
theorem arrival_resolve (env : SysEnv) (recs : List Record) (key c : String)
    (p o : Nat) (started : Nat → Bool) (s : SysState) (hp : 1 ≤ p)
    (ho : o < recs.length)
    (hall : ∀ j, j < recs.length → j ≠ o → started j = true)
    (ha : ArrivalState recs key c p o started s) :
    ResolvedState recs key c p o (coutcome (env key c)) (fun _ => false)
      (stepAt env s o) := by
  have hot : o < s.ntasks := by rw [ha.hn]; exact ho
  have hpc := ha.howner
  cases henv : env key c with
  | ok parsed =>
    simp only [coutcome]
    cases parsed with
    | empty =>
      have hstep : stepAt env s o = { s with
          futures := fupd s.futures 0 (some ⟨key, some .empty⟩)
          inflight := fupd s.inflight key none
          permits := s.permits + 1
          tasks := fun i => if i = o then .done (recAt recs o) (some .empty)
            else s.tasks i } := by
        simp [stepAt, hot, hpc, stepTask, henv, ha.hinf key, resolveFut, ha.hfut 0, recWith]
      rw [hstep]
      constructor
      case hn => exact ha.hn
      case hfid => exact ha.hfid
      case hperm => dsimp only; rw [ha.hperm]; omega
      case hlog => exact ha.hlog
      case hcache => intro k; rw [ha.hcache k]; rfl
      case hinf =>
        intro k
        dsimp only
        by_cases hk : k = key
        · rw [hk, fupd_same]
        · rw [fupd_other _ _ _ _ hk, ha.hinf k]; simp [hk]
      case hfut =>
        intro f
        dsimp only
        by_cases hf : f = 0
        · rw [hf, fupd_same]; rfl
        · rw [fupd_other _ _ _ _ hf, ha.hfut f]; simp [hf]
      case howner => dsimp only; rw [if_pos rfl]; rfl
      case hwait =>
        intro j hj hjo
        dsimp only
        rw [if_neg hjo]
        rw [ha.hwait j hj hjo, hall j hj hjo]
        simp
      case hjunk =>
        intro j hj
        dsimp only
        have hx : j ≠ o := by omega
        rw [if_neg hx]
        exact ha.hjunk j hj
    | found f0 =>
      have hstep : stepAt env s o = { s with
          cache := fupd s.cache key (some (.found f0))
          futures := fupd s.futures 0 (some ⟨key, some (.found f0)⟩)
          inflight := fupd s.inflight key none
          permits := s.permits + 1
          tasks := fun i => if i = o then
              .done (recordSet (recAt recs o) "_parsed" (.res (.found f0)))
                (some (.found f0))
            else s.tasks i } := by
        simp [stepAt, hot, hpc, stepTask, henv, ha.hinf key, resolveFut, ha.hfut 0, recWith]
      rw [hstep]
      constructor
      case hn => exact ha.hn
      case hfid => exact ha.hfid
      case hperm => dsimp only; rw [ha.hperm]; omega
      case hlog => exact ha.hlog
      case hcache =>
        intro k
        dsimp only
        by_cases hk : k = key
        · rw [hk, fupd_same]; simp [cacheVal]
        · rw [fupd_other _ _ _ _ hk, ha.hcache k]; simp [cacheVal, hk]
      case hinf =>
        intro k
        dsimp only
        by_cases hk : k = key
        · rw [hk, fupd_same]
        · rw [fupd_other _ _ _ _ hk, ha.hinf k]; simp [hk]
      case hfut =>
        intro f
        dsimp only
        by_cases hf : f = 0
        · rw [hf, fupd_same]; simp
        · rw [fupd_other _ _ _ _ hf, ha.hfut f]; simp [hf]
      case howner => dsimp only; rw [if_pos rfl]; rfl
      case hwait =>
        intro j hj hjo
        dsimp only
        rw [if_neg hjo]
        rw [ha.hwait j hj hjo, hall j hj hjo]
        simp
      case hjunk =>
        intro j hj
        dsimp only
        have hx : j ≠ o := by omega
        rw [if_neg hx]
        exact ha.hjunk j hj
  | err =>
    simp only [coutcome]
    have hstep : stepAt env s o = { s with
        futures := fupd s.futures 0 (some ⟨key, some .empty⟩)
        inflight := fupd s.inflight key none
        permits := s.permits + 1
        tasks := fun i => if i = o then .done (recAt recs o) (some .empty)
          else s.tasks i } := by
      simp [stepAt, hot, hpc, stepTask, henv, ha.hinf key, resolveFut, ha.hfut 0]
    rw [hstep]
    constructor
    case hn => exact ha.hn
    case hfid => exact ha.hfid
    case hperm => dsimp only; rw [ha.hperm]; omega
    case hlog => exact ha.hlog
    case hcache => intro k; rw [ha.hcache k]; rfl
    case hinf =>
      intro k
      dsimp only
      by_cases hk : k = key
      · rw [hk, fupd_same]
      · rw [fupd_other _ _ _ _ hk, ha.hinf k]; simp [hk]
    case hfut =>
      intro f
      dsimp only
      by_cases hf : f = 0
      · rw [hf, fupd_same]; rfl
      · rw [fupd_other _ _ _ _ hf, ha.hfut f]; simp [hf]
    case howner => dsimp only; rw [if_pos rfl]; rfl
    case hwait =>
      intro j hj hjo
      dsimp only
      rw [if_neg hjo]
      rw [ha.hwait j hj hjo, hall j hj hjo]
      simp
    case hjunk =>
      intro j hj
      dsimp only
      have hx : j ≠ o := by omega
      rw [if_neg hx]
      exact ha.hjunk j hj

/-- A waiter draining the resolved future. -/
theorem resolved_drain (env : SysEnv) (recs : List Record) (key c : String)
    (p o : Nat) (v : LookupResult) (dn : Nat → Bool) (s : SysState)
    (hr : ResolvedState recs key c p o v dn s)
    (j : Nat) (hjn : j < recs.length) (hjo : j ≠ o) (hdj : dn j = false) :
    ResolvedState recs key c p o v (fupd dn j true) (stepAt env s j) := by
  have hjt : j < s.ntasks := by rw [hr.hn]; exact hjn
  have hpc : s.tasks j = .waitFut 0 (recAt recs j) key := by
    rw [hr.hwait j hjn hjo, hdj]; simp
  cases v with
  | empty =>
    have hstep : stepAt env s j = { s with
        tasks := fun i => if i = j then .done (recAt recs j) (some .empty)
          else s.tasks i } := by
      simp [stepAt, hjt, hpc, stepTask, hr.hfut 0]
    rw [hstep]
    constructor
    case hn => exact hr.hn
    case hfid => exact hr.hfid
    case hperm => exact hr.hperm
    case hlog => exact hr.hlog
    case hcache => exact hr.hcache
    case hinf => exact hr.hinf
    case hfut => exact hr.hfut
    case howner =>
      dsimp only
      rw [if_neg (fun hx => hjo hx.symm)]
      exact hr.howner
    case hwait =>
      intro j' hj' hjo'
      dsimp only
      by_cases hx : j' = j
      · subst hx
        rw [if_pos rfl, fupd_same]
        simp [recWith]
      · rw [if_neg hx, fupd_other _ _ _ _ hx]
        exact hr.hwait j' hj' hjo'
    case hjunk =>
      intro j' hj'
      dsimp only
      have hx : j' ≠ j := by omega
      rw [if_neg hx]
      exact hr.hjunk j' hj'
  | found f0 =>
    have hstep : stepAt env s j = { s with
        cache := fupd s.cache key (some (.found f0))
        tasks := fun i => if i = j then
            .done (recordSet (recAt recs j) "_parsed" (.res (.found f0)))
              (some (.found f0))
          else s.tasks i } := by
      simp [stepAt, hjt, hpc, stepTask, hr.hfut 0]
    rw [hstep]
    constructor
    case hn => exact hr.hn
    case hfid => exact hr.hfid
    case hperm => exact hr.hperm
    case hlog => exact hr.hlog
    case hcache =>
      intro k
      dsimp only
      by_cases hk : k = key
      · rw [hk, fupd_same]; simp [cacheVal]
      · rw [fupd_other _ _ _ _ hk, hr.hcache k]
    case hinf => exact hr.hinf
    case hfut => exact hr.hfut
    case howner =>
      dsimp only
      rw [if_neg (fun hx => hjo hx.symm)]
      exact hr.howner
    case hwait =>
      intro j' hj' hjo'
      dsimp only
      by_cases hx : j' = j
      · subst hx
        rw [if_pos rfl, fupd_same]
        simp [recWith]
      · rw [if_neg hx, fupd_other _ _ _ _ hx]
        exact hr.hwait j' hj' hjo'
    case hjunk =>
      intro j' hj'
      dsimp only
      have hx : j' ≠ j := by omega
      rw [if_neg hx]
      exact hr.hjunk j' hj'

/-- The single-flight scenario invariant is preserved by every scheduler
step once the whole batch has arrived. -/
theorem sf_step (env : SysEnv) (recs : List Record) (key c : String)
    (p o : Nat) (hp : 1 ≤ p) (ho : o < recs.length)
    (s : SysState) (j : Nat) (h : SFInv env recs key c p o s) :
    SFInv env recs key c p o (stepAt env s j) := by
  rcases h with ⟨started, hall, ha⟩ | ⟨dn, hr⟩
  · by_cases hjn : j < recs.length
    · by_cases hjo : j = o
      · subst hjo
        exact Or.inr ⟨fun _ => false, arrival_resolve env recs key c p j started s hp hjn hall ha⟩
      · have hpc : s.tasks j = .waitFut 0 (recAt recs j) key := by
          rw [ha.hwait j hjn hjo, hall j hjn hjo]; simp
        have hjt : j < s.ntasks := by rw [ha.hn]; exact hjn
        have hstep : stepAt env s j = s := by
          simp [stepAt, hjt, hpc, stepTask, ha.hfut 0]
        rw [hstep]
        exact Or.inl ⟨started, hall, ha⟩
    · have hjt : ¬ j < s.ntasks := by rw [ha.hn]; exact hjn
      have hstep : stepAt env s j = s := by simp [stepAt, hjt]
      rw [hstep]
      exact Or.inl ⟨started, hall, ha⟩
  · by_cases hjn : j < recs.length
    · by_cases hjo : j = o
      · subst hjo
        have hjt : j < s.ntasks := by rw [hr.hn]; exact hjn
        have hstep : stepAt env s j = s := by
          simp [stepAt, hjt, hr.howner, stepTask]
        rw [hstep]
        exact Or.inr ⟨dn, hr⟩
      · cases hdj : dn j with
        | true =>
          have hpc : s.tasks j = .done (recWith (recAt recs j) (coutcome (env key c)))
              (some (coutcome (env key c))) := by
            rw [hr.hwait j hjn hjo, hdj]; simp
          have hjt : j < s.ntasks := by rw [hr.hn]; exact hjn
          have hstep : stepAt env s j = s := by
            simp [stepAt, hjt, hpc, stepTask]
          rw [hstep]
          exact Or.inr ⟨dn, hr⟩
        | false =>
          exact Or.inr ⟨fupd dn j true,
            resolved_drain env recs key c p o _ dn s hr j hjn hjo hdj⟩
    · have hjt : ¬ j < s.ntasks := by rw [hr.hn]; exact hjn
      have hstep : stepAt env s j = s := by simp [stepAt, hjt]
      rw [hstep]
      exact Or.inr ⟨dn, hr⟩

theorem sf_run (env : SysEnv) (recs : List Record) (key c : String)
    (p o : Nat) (hp : 1 ≤ p) (ho : o < recs.length)
    (s : SysState) (l : List Nat) (h : SFInv env recs key c p o s) :
    SFInv env recs key c p o (run env s l) := by
  induction l generalizing s with
  | nil => exact h
  | cons a l ih => exact ih _ (sf_step env recs key c p o hp ho s a h)

theorem chainKey_owner {pc : TaskPC} {k : String}
    (h : pcChainKey pc = some k) : ∃ fid, pcOwner pc = some (k, fid) := by
  cases pc with
  | inChain fid rec key country =>
    simp only [pcChainKey] at h
    exact ⟨fid, by rw [Option.some.inj h]; rfl⟩
  | start rec => exact absurd h (by simp [pcChainKey])
  | waitFut fid rec key => exact absurd h (by simp [pcChainKey])
  | waitSem fid rec key country => exact absurd h (by simp [pcChainKey])
  | done rec d => exact absurd h (by simp [pcChainKey])

/-- In every reachable state, at most one task executes the Provider Chain
for any given key. -/
theorem single_flight_bound (env : SysEnv) (p : Nat) (recs : List Record)
    (sched : List Nat) (k : String) :
    inKeyCount (run env (initState p recs) sched) k ≤ 1 := by
  have hinv := inv_reach env p recs sched
  unfold inKeyCount
  apply length_filter_le_one (List.nodup_range _)
  intro i _ j _ hqi hqj
  rw [decide_eq_true_eq] at hqi hqj
  obtain ⟨fi, hfi⟩ := chainKey_owner hqi
  obtain ⟨fj, hfj⟩ := chainKey_owner hqj
  exact hinv.owner_unique i j k fi fj hfi hfj

theorem mem_of_recAt (recs : List Record) (j : Nat) (hj : j < recs.length) :
    recAt recs j ∈ recs := by
  exact List.getElem?_mem (recAt_get recs j hj)

/-- The single-flight scenario: `K` tasks whose records share one key all
arrive (in any order `o :: tail`) before the initiator's chain invocation
resolves; once the run completes, exactly one chain invocation has happened
and every task was delivered that invocation's outcome. -/
theorem single_flight_scenario (env : SysEnv) (p : Nat) (recs : List Record)
    (key : String) (o : Nat) (tail rest : List Nat)
    (hp : 1 ≤ p)
    (hkeys : ∀ r ∈ recs, recordCep r = key) (hlen : 5 ≤ key.length)
    (hperm : (o :: tail).Perm (List.range recs.length))
    (hcomp : completed (run env (initState p recs) ((o :: tail) ++ rest))) :
    (run env (initState p recs) ((o :: tail) ++ rest)).chainLog
      = [(key, countryOf (recAt recs o))] ∧
    ∀ j, j < recs.length → ∃ r',
      (run env (initState p recs) ((o :: tail) ++ rest)).tasks j
        = .done r' (some (coutcome (env key (countryOf (recAt recs o))))) := by
  simp only [List.cons_append] at hcomp ⊢
  have hmem : ∀ j, j ∈ o :: tail ↔ j < recs.length := by
    intro j
    rw [hperm.mem_iff, List.mem_range]
  have ho : o < recs.length := (hmem o).mp (by simp)
  have hnd : (o :: tail).Nodup := by
    rw [hperm.nodup_iff]
    exact List.nodup_range _
  rw [List.nodup_cons] at hnd
  have hkeyAt : ∀ j, j < recs.length → recordCep (recAt recs j) = key := by
    intro j hj
    exact hkeys _ (mem_of_recAt recs j hj)
  have a1 := arrival_first env p recs key o ho hp (hkeyAt o ho) hlen
  have ar := arrival_run env recs key (countryOf (recAt recs o)) p o hlen tail
    (fun _ => false) (stepAt env (initState p recs) o) a1 hnd.2 hnd.1
    (fun j hjl => ⟨(hmem j).mp (by simp [hjl]), rfl⟩)
    (fun j hjl => hkeyAt j ((hmem j).mp (by simp [hjl])))
  have hsf : SFInv env recs key (countryOf (recAt recs o)) p o
      (run env (initState p recs) (o :: tail)) := by
    rw [run_cons]
    refine Or.inl ⟨_, ?_, ar⟩
    intro j hj hjo
    have hjt : j ∈ o :: tail := (hmem j).mpr hj
    have : j ∈ tail := by
      rcases List.mem_cons.mp hjt with hx | hx
      · exact absurd hx hjo
      · exact hx
    simp [this]
  have hsf2 := sf_run env recs key (countryOf (recAt recs o)) p o hp ho _ rest hsf
  rw [← run_append] at hsf2
  simp only [List.cons_append] at hsf2
  rcases hsf2 with ⟨started, hall, ha⟩ | ⟨dn, hr⟩
  · exfalso
    have hdone := hcomp o (by rw [ha.hn]; exact ho)
    rw [ha.howner] at hdone
    simp [pcIsDone] at hdone
  · refine ⟨hr.hlog, ?_⟩
    intro j hj
    by_cases hjo : j = o
    · subst hjo
      exact ⟨_, hr.howner⟩
    · have hw := hr.hwait j hj hjo
      cases hdj : dn j with
      | true =>
        rw [hdj] at hw
        simp at hw
        exact ⟨_, hw⟩
      | false =>
        exfalso
        rw [hdj] at hw
        simp at hw
        have hdone := hcomp j (by rw [hr.hn]; exact hj)
        rw [hw] at hdone
        simp [pcIsDone] at hdone

/-- C1.  Single-flight coalescing: for every normalized lookup key, at most
one Provider Chain invocation is in flight at any instant (in every reachable
state of any batch); and when the K tasks of a batch sharing one normalized
key all call `enrich_address_with_zipcode` before the initiator's external
call resolves (an arbitrary arrival permutation `o :: tail`, followed by any
completing schedule), exactly one Provider Chain invocation occurs, and every
one of the K callers is delivered the identical outcome — the one produced by
the initiator's invocation. -/
theorem C1_single_flight :
    (∀ (env : SysEnv) (p : Nat) (recs : List Record) (sched : List Nat) (k : String),
      inKeyCount (run env (initState p recs) sched) k ≤ 1) ∧
    (∀ (env : SysEnv) (p : Nat) (recs : List Record) (key : String)
       (o : Nat) (tail rest : List Nat),
      1 ≤ p → (∀ r ∈ recs, recordCep r = key) → 5 ≤ key.length →
      (o :: tail).Perm (List.range recs.length) →
      completed (run env (initState p recs) ((o :: tail) ++ rest)) →
      (run env (initState p recs) ((o :: tail) ++ rest)).chainLog
        = [(key, countryOf (recAt recs o))] ∧
      ∀ j, j < recs.length → ∃ r',
        (run env (initState p recs) ((o :: tail) ++ rest)).tasks j
          = .done r' (some (coutcome (env key (countryOf (recAt recs o)))))) :=
  ⟨fun env p recs sched k => single_flight_bound env p recs sched k,
   fun env p recs key o tail rest hp hkeys hlen hperm hcomp =>
    single_flight_scenario env p recs key o tail rest hp hkeys hlen hperm hcomp⟩

/-- The completion step of an initiator always resolves its key's future
(with the chain outcome, or `{}` on the error path), removes the pending
entry in the same atomic step, and leaves the task returned. -/
theorem owner_step_resolves (env : SysEnv) (p : Nat) (s : SysState)
    (hinv : Inv env p s) (i fid : Nat) (rec : Record) (key country : String)
    (hpc : s.tasks i = .inChain fid rec key country) :
    (stepAt env s i).futures fid = some ⟨key, some (coutcome (env key country))⟩ ∧
    (stepAt env s i).inflight key = none ∧
    (stepAt env s i).tasks i = .done (recWith rec (coutcome (env key country)))
      (some (coutcome (env key country))) := by
  have hi : i < s.ntasks := by
    by_contra hx
    push_neg at hx
    rw [hinv.junk_done i hx] at hpc
    exact TaskPC.noConfusion hpc
  have hio : pcOwner (s.tasks i) = some (key, fid) := by rw [hpc]; rfl
  have hinf := hinv.owner_inflight i key fid hio
  have hfut := hinv.inflight_fut key fid hinf
  cases henv : env key country with
  | ok parsed =>
    simp only [coutcome]
    cases parsed with
    | empty =>
      have hstep : stepAt env s i = { s with
          futures := fupd s.futures fid (some ⟨key, some .empty⟩)
          inflight := fupd s.inflight key none
          permits := s.permits + 1
          tasks := fun j => if j = i then .done rec (some .empty) else s.tasks j } := by
        simp [stepAt, hi, hpc, stepTask, henv, hinf, resolveFut, hfut, recWith]
      rw [hstep]
      exact ⟨by dsimp only; rw [fupd_same], by dsimp only; rw [fupd_same],
        by dsimp only; rw [if_pos rfl]; rfl⟩
    | found f0 =>
      have hstep : stepAt env s i = { s with
          cache := fupd s.cache key (some (.found f0))
          futures := fupd s.futures fid (some ⟨key, some (.found f0)⟩)
          inflight := fupd s.inflight key none
          permits := s.permits + 1
          tasks := fun j => if j = i then
            .done (recordSet rec "_parsed" (.res (.found f0))) (some (.found f0))
            else s.tasks j } := by
        simp [stepAt, hi, hpc, stepTask, henv, hinf, resolveFut, hfut, recWith]
      rw [hstep]
      exact ⟨by dsimp only; rw [fupd_same], by dsimp only; rw [fupd_same],
        by dsimp only; rw [if_pos rfl]; rfl⟩
  | err =>
    simp only [coutcome]
    have hstep : stepAt env s i = { s with
        futures := fupd s.futures fid (some ⟨key, some .empty⟩)
        inflight := fupd s.inflight key none
        permits := s.permits + 1
        tasks := fun j => if j = i then .done rec (some .empty) else s.tasks j } := by
      simp [stepAt, hi, hpc, stepTask, henv, hinf, resolveFut, hfut]
    rw [hstep]
    exact ⟨by dsimp only; rw [fupd_same], by dsimp only; rw [fupd_same],
      by dsimp only; rw [if_pos rfl]; rfl⟩

/-- A waiter whose future is resolved is unblocked: its next step returns. -/
theorem waiter_unblocks (env : SysEnv) (s : SysState) (j fid : Nat)
    (rec' : Record) (k' key : String) (v : LookupResult)
    (hj : j < s.ntasks) (hpc : s.tasks j = .waitFut fid rec' k')
    (hfut : s.futures fid = some ⟨key, some v⟩) :
    ∃ r d, (stepAt env s j).tasks j = .done r d := by
  cases v with
  | empty =>
    refine ⟨rec', some .empty, ?_⟩
    have hstep : stepAt env s j = { s with
        tasks := fun i => if i = j then .done rec' (some .empty) else s.tasks i } := by
      simp [stepAt, hj, hpc, stepTask, hfut]
    rw [hstep]
    dsimp only
    rw [if_pos rfl]
  | found f0 =>
    refine ⟨recordSet rec' "_parsed" (.res (.found f0)), some (.found f0), ?_⟩
    have hstep : stepAt env s j = { s with
        cache := fupd s.cache k' (some (.found f0))
        tasks := fun i => if i = j then
          .done (recordSet rec' "_parsed" (.res (.found f0))) (some (.found f0))
          else s.tasks i } := by
      simp [stepAt, hj, hpc, stepTask, hfut]
    rw [hstep]
    dsimp only
    rw [if_pos rfl]

/-- Frame facts of one scheduler step: the task count is stable, other
tasks' program counters are untouched, the stepped task's record is either
unchanged or updated only at the reserved `"_parsed"` slot, and existing
cache entries are never changed. -/
theorem step_frame (env : SysEnv) (p : Nat) (s : SysState) (hinv : Inv env p s)
    (i : Nat) :
    (stepAt env s i).ntasks = s.ntasks ∧
    (∀ j, j ≠ i → (stepAt env s i).tasks j = s.tasks j) ∧
    (pcRec ((stepAt env s i).tasks i) = pcRec (s.tasks i) ∨
      ∃ v, pcRec ((stepAt env s i).tasks i)
        = recordSet (pcRec (s.tasks i)) "_parsed" (.res v)) ∧
    (∀ k v, s.cache k = some v → (stepAt env s i).cache k = some v) := by
  by_cases hi : i < s.ntasks
  · cases hpc : s.tasks i with
    | start rec =>
      by_cases hrej : recordCep rec = "" ∨ (recordCep rec).length < 5
      · have hstep : stepAt env s i = { s with
            tasks := fun j => if j = i then .done rec none else s.tasks j } := by
          simp [stepAt, hi, hpc, stepTask, hrej]
        rw [hstep]
        refine ⟨rfl, fun j hj => by dsimp only; rw [if_neg hj], ?_, fun k v hv => hv⟩
        left
        dsimp only
        rw [if_pos rfl]; rfl
      · cases hcache : s.cache (recordCep rec) with
        | some v =>
          have hstep : stepAt env s i = { s with
              tasks := fun j => if j = i then
                .done (recordSet rec "_parsed" (.res v)) (some v) else s.tasks j } := by
            simp [stepAt, hi, hpc, stepTask, hrej, hcache]
          rw [hstep]
          refine ⟨rfl, fun j hj => by dsimp only; rw [if_neg hj], ?_, fun k v' hv => hv⟩
          right
          exact ⟨v, by dsimp only; rw [if_pos rfl]; rfl⟩
        | none =>
          cases hinf : s.inflight (recordCep rec) with
          | some fid =>
            have hstep : stepAt env s i = { s with
                tasks := fun j => if j = i then
                  .waitFut fid rec (recordCep rec) else s.tasks j } := by
              simp [stepAt, hi, hpc, stepTask, hrej, hcache, hinf]
            rw [hstep]
            refine ⟨rfl, fun j hj => by dsimp only; rw [if_neg hj], ?_, fun k v hv => hv⟩
            left
            dsimp only
            rw [if_pos rfl]; rfl
          | none =>
            by_cases hperm : 0 < s.permits
            · have hstep : stepAt env s i = { s with
                  inflight := fupd s.inflight (recordCep rec) (some s.nextFut)
                  futures := fupd s.futures s.nextFut (some ⟨recordCep rec, none⟩)
                  nextFut := s.nextFut + 1
                  permits := s.permits - 1
                  chainLog := s.chainLog ++ [(recordCep rec, countryOf rec)]
                  tasks := fun j => if j = i then
                    .inChain s.nextFut rec (recordCep rec) (countryOf rec)
                    else s.tasks j } := by
                simp [stepAt, hi, hpc, stepTask, hrej, hcache, hinf, hperm]
              rw [hstep]
              refine ⟨rfl, fun j hj => by dsimp only; rw [if_neg hj], ?_, fun k v hv => hv⟩
              left
              dsimp only
              rw [if_pos rfl]; rfl
            · have hstep : stepAt env s i = { s with
                  inflight := fupd s.inflight (recordCep rec) (some s.nextFut)
                  futures := fupd s.futures s.nextFut (some ⟨recordCep rec, none⟩)
                  nextFut := s.nextFut + 1
                  tasks := fun j => if j = i then
                    .waitSem s.nextFut rec (recordCep rec) (countryOf rec)
                    else s.tasks j } := by
                simp [stepAt, hi, hpc, stepTask, hrej, hcache, hinf, hperm]
              rw [hstep]
              refine ⟨rfl, fun j hj => by dsimp only; rw [if_neg hj], ?_, fun k v hv => hv⟩
              left
              dsimp only
              rw [if_pos rfl]; rfl
    | waitFut fid rec key =>
      cases hfu : s.futures fid with
      | none =>
        have hstep : stepAt env s i = s := by
          simp [stepAt, hi, hpc, stepTask, hfu]
        rw [hstep]
        exact ⟨rfl, fun j hj => rfl, Or.inl (by rw [hpc]), fun k v hv => hv⟩
      | some c =>
        obtain ⟨c', hc', hk'⟩ := hinv.wait_fut i fid rec key hpc
        rw [hfu] at hc'
        have hcc : c = c' := Option.some.inj hc'
        subst hcc
        cases hcv : c.val with
        | none =>
          have hstep : stepAt env s i = s := by
            simp [stepAt, hi, hpc, stepTask, hfu, hcv]
          rw [hstep]
          exact ⟨rfl, fun j hj => rfl, Or.inl (by rw [hpc]), fun k v hv => hv⟩
        | some parsed =>
          have hcell : c = ⟨key, some parsed⟩ := by
            obtain ⟨a, b⟩ := c
            dsimp only at hk' hcv ⊢
            rw [hk', hcv]
          subst hcell
          cases parsed with
          | empty =>
            have hstep : stepAt env s i = { s with
                tasks := fun j => if j = i then .done rec (some .empty) else s.tasks j } := by
              simp [stepAt, hi, hpc, stepTask, hfu]
            rw [hstep]
            refine ⟨rfl, fun j hj => by dsimp only; rw [if_neg hj], ?_, fun k v hv => hv⟩
            left
            dsimp only
            rw [if_pos rfl]; rfl
          | found f0 =>
            have hstep : stepAt env s i = { s with
                cache := fupd s.cache key (some (.found f0))
                tasks := fun j => if j = i then
                  .done (recordSet rec "_parsed" (.res (.found f0))) (some (.found f0))
                  else s.tasks j } := by
              simp [stepAt, hi, hpc, stepTask, hfu]
            rw [hstep]
            have hck : s.cache key = some (.found f0) :=
              hinv.fut_cache fid key (.found f0) hfu (by simp)
            refine ⟨rfl, fun j hj => by dsimp only; rw [if_neg hj], ?_, ?_⟩
            · right
              exact ⟨.found f0, by dsimp only; rw [if_pos rfl]; rfl⟩
            · intro k v hv
              dsimp only
              by_cases hk : k = key
              · subst hk
                rw [hck] at hv
                rw [fupd_same]
                exact hv
              · rw [fupd_other _ _ _ _ hk]
                exact hv
    | waitSem fid rec key country =>
      by_cases hperm : 0 < s.permits
      · have hstep : stepAt env s i = { s with
            permits := s.permits - 1
            chainLog := s.chainLog ++ [(key, country)]
            tasks := fun j => if j = i then .inChain fid rec key country else s.tasks j } := by
          simp [stepAt, hi, hpc, stepTask, hperm]
        rw [hstep]
        refine ⟨rfl, fun j hj => by dsimp only; rw [if_neg hj], ?_, fun k v hv => hv⟩
        left
        dsimp only
        rw [if_pos rfl]; rfl
      · have hstep : stepAt env s i = s := by
          simp [stepAt, hi, hpc, stepTask, hperm]
        rw [hstep]
        exact ⟨rfl, fun j hj => rfl, Or.inl (by rw [hpc]), fun k v hv => hv⟩
    | inChain fid rec key country =>
      have hio : pcOwner (s.tasks i) = some (key, fid) := by rw [hpc]; rfl
      have hinf : s.inflight key = some fid := hinv.owner_inflight i key fid hio
      have hfut : s.futures fid = some ⟨key, none⟩ := hinv.inflight_fut key fid hinf
      have hnoc : s.cache key = none := hinv.owner_nocache i key fid hio
      cases henv : env key country with
      | ok parsed =>
        cases parsed with
        | empty =>
          have hstep : stepAt env s i = { s with
              futures := fupd s.futures fid (some ⟨key, some .empty⟩)
              inflight := fupd s.inflight key none
              permits := s.permits + 1
              tasks := fun j => if j = i then .done rec (some .empty) else s.tasks j } := by
            simp [stepAt, hi, hpc, stepTask, henv, hinf, resolveFut, hfut, recWith]
          rw [hstep]
          refine ⟨rfl, fun j hj => by dsimp only; rw [if_neg hj], ?_, fun k v hv => hv⟩
          left
          dsimp only
          rw [if_pos rfl]; rfl
        | found f0 =>
          have hstep : stepAt env s i = { s with
              cache := fupd s.cache key (some (.found f0))
              futures := fupd s.futures fid (some ⟨key, some (.found f0)⟩)
              inflight := fupd s.inflight key none
              permits := s.permits + 1
              tasks := fun j => if j = i then
                .done (recordSet rec "_parsed" (.res (.found f0))) (some (.found f0))
                else s.tasks j } := by
            simp [stepAt, hi, hpc, stepTask, henv, hinf, resolveFut, hfut, recWith]
          rw [hstep]
          refine ⟨rfl, fun j hj => by dsimp only; rw [if_neg hj], ?_, ?_⟩
          · right
            exact ⟨.found f0, by dsimp only; rw [if_pos rfl]; rfl⟩
          · intro k v hv
            dsimp only
            by_cases hk : k = key
            · subst hk
              rw [hnoc] at hv
              exact Option.noConfusion hv
            · rw [fupd_other _ _ _ _ hk]
              exact hv
      | err =>
        have hstep : stepAt env s i = { s with
            futures := fupd s.futures fid (some ⟨key, some .empty⟩)
            inflight := fupd s.inflight key none
            permits := s.permits + 1
            tasks := fun j => if j = i then .done rec (some .empty) else s.tasks j } := by
          simp [stepAt, hi, hpc, stepTask, henv, hinf, resolveFut, hfut]
        rw [hstep]
        refine ⟨rfl, fun j hj => by dsimp only; rw [if_neg hj], ?_, fun k v hv => hv⟩
        left
        dsimp only
        rw [if_pos rfl]; rfl
    | done rec d =>
      have hstep : stepAt env s i = s := by
        simp [stepAt, hi, hpc, stepTask]
      rw [hstep]
      exact ⟨rfl, fun j hj => rfl, Or.inl (by rw [hpc]), fun k v hv => hv⟩
  · have hstep : stepAt env s i = s := by simp [stepAt, hi]
    rw [hstep]
    exact ⟨rfl, fun j hj => rfl, Or.inl rfl, fun k v hv => hv⟩

/-- Cache entries persist across whole runs. -/
theorem cache_stable_run (env : SysEnv) (p : Nat) (s : SysState) (hinv : Inv env p s)
    (l : List Nat) (k : String) (v : LookupResult) (hc : s.cache k = some v) :
    (run env s l).cache k = some v := by
  induction l generalizing s with
  | nil => exact hc
  | cons a l ih =>
    exact ih (stepAt env s a) (inv_step env p s a hinv)
      ((step_frame env p s hinv a).2.2.2 k v hc)

/-- A task's record only ever changes at the reserved `"_parsed"` slot. -/
theorem frame_run (env : SysEnv) (p : Nat) (s : SysState) (hinv : Inv env p s)
    (l : List Nat) (i : Nat) (k : String) (hk : k ≠ "_parsed") :
    recordGet (pcRec ((run env s l).tasks i)) k = recordGet (pcRec (s.tasks i)) k := by
  induction l generalizing s with
  | nil => rfl
  | cons a l ih =>
    rw [run_cons, ih (stepAt env s a) (inv_step env p s a hinv)]
    obtain ⟨-, hother, hrec, -⟩ := step_frame env p s hinv a
    by_cases hai : i = a
    · subst hai
      rcases hrec with hsame | ⟨v, hv⟩
      · rw [hsame]
      · rw [hv, recordGet_set_ne _ _ _ _ hk]
    · rw [hother i hai]

/-- C2.  Waiters are always released: whenever an initiator of `key` (a task
inside the guarded chain invocation, on any reachable state) takes its
completion step — normal return with a non-empty or empty result, or the
unexpected-error path (`env key country = .err`) — that single atomic step
resolves the key's future with at least an empty outcome and removes the
pending-table entry, and afterwards every task coalesced on that future is
unblocked: scheduling it makes it return.  No waiter is left permanently
unresolved. -/
theorem C2_waiters_released (env : SysEnv) (p : Nat) (recs : List Record)
    (sched : List Nat) (i fid : Nat) (rec : Record) (key country : String)
    (hpc : (run env (initState p recs) sched).tasks i = .inChain fid rec key country) :
    (stepAt env (run env (initState p recs) sched) i).futures fid
      = some ⟨key, some (coutcome (env key country))⟩ ∧
    (stepAt env (run env (initState p recs) sched) i).inflight key = none ∧
    (∀ j fid' rec' k',
      (stepAt env (run env (initState p recs) sched) i).tasks j = .waitFut fid' rec' k' →
      fid' = fid →
      ∃ r d, (stepAt env (stepAt env (run env (initState p recs) sched) i) j).tasks j
        = .done r d) := by
  have hinv := inv_reach env p recs sched
  obtain ⟨h1, h2, h3⟩ := owner_step_resolves env p _ hinv i fid rec key country hpc
  refine ⟨h1, h2, ?_⟩
  intro j fid' rec' k' hw hfid
  subst hfid
  have hinv' := inv_step env p _ i hinv
  have hj : j < (stepAt env (run env (initState p recs) sched) i).ntasks := by
    by_contra hx
    push_neg at hx
    rw [hinv'.junk_done j hx] at hw
    exact TaskPC.noConfusion hw
  exact waiter_unblocks env _ j fid' rec' k' key _ hj hw h1

theorem done_not_inChain {pc : TaskPC} (h : pcIsDone pc = true) :
    pcIsInChain pc = false := by
  cases pc <;> simp_all [pcIsDone, pcIsInChain]

/-- C3.  No negative caching: in every reachable state every cache entry is
non-empty; and for a key all of whose chain outcomes are empty (so its lookup
resolved empty), the key is absent from the cache, and the next
`resolve(key)` — a fresh task stepped once the batch has quiesced — registers
a new pending request and starts a fresh Provider Chain invocation. -/
theorem C3_no_negative_caching :
    (∀ (env : SysEnv) (p : Nat) (recs : List Record) (sched : List Nat)
       (k : String) (v : LookupResult),
      (run env (initState p recs) sched).cache k = some v → v ≠ .empty) ∧
    (∀ (env : SysEnv) (p : Nat) (recs : List Record) (sched : List Nat)
       (i : Nat) (rec : Record) (k : String),
      1 ≤ p →
      (∀ c v, env k c = .ok v → v = .empty) →
      recordCep rec = k → 5 ≤ k.length →
      (run env (initState p recs) sched).tasks i = .start rec →
      (∀ j, j < (run env (initState p recs) sched).ntasks → j ≠ i →
        pcIsDone ((run env (initState p recs) sched).tasks j) = true) →
      (run env (initState p recs) sched).cache k = none ∧
      (stepAt env (run env (initState p recs) sched) i).chainLog
        = (run env (initState p recs) sched).chainLog ++ [(k, countryOf rec)] ∧
      (stepAt env (run env (initState p recs) sched) i).tasks i
        = .inChain (run env (initState p recs) sched).nextFut rec k (countryOf rec)) := by
  constructor
  · intro env p recs sched k v hv
    exact (inv_reach env p recs sched).cache_pos k v hv
  · intro env p recs sched i rec k hp hempty hkey hklen hstart hall
    have hinv := inv_reach env p recs sched
    have hi : i < (run env (initState p recs) sched).ntasks := by
      by_contra hx
      push_neg at hx
      rw [hinv.junk_done i hx] at hstart
      exact TaskPC.noConfusion hstart
    have hcache : (run env (initState p recs) sched).cache k = none := by
      rcases hx : (run env (initState p recs) sched).cache k with _ | v
      · rfl
      · exfalso
        obtain ⟨c, hc⟩ := hinv.cache_chain k v hx
        exact hinv.cache_pos k v hx (hempty c v hc)
    have hinf : (run env (initState p recs) sched).inflight k = none := by
      rcases hx : (run env (initState p recs) sched).inflight k with _ | fid
      · rfl
      · exfalso
        obtain ⟨a, ha⟩ := hinv.inflight_owner k fid hx
        have han : a < (run env (initState p recs) sched).ntasks := by
          by_contra hy
          push_neg at hy
          rw [hinv.junk_done a hy] at ha
          exact Option.noConfusion ha
        by_cases hai : a = i
        · rw [hai, hstart] at ha
          exact Option.noConfusion ha
        · have := hall a han hai
          cases hpa : (run env (initState p recs) sched).tasks a <;>
            rw [hpa] at this ha <;> simp [pcIsDone, pcOwner] at this ha
    have hzero : inChainCount (run env (initState p recs) sched) = 0 := by
      unfold inChainCount
      rw [List.length_eq_zero, List.filter_eq_nil_iff]
      intro a hain
      rw [List.mem_range] at hain
      by_cases hai : a = i
      · rw [hai, hstart]
        simp
      · have := hall a hain hai
        rw [done_not_inChain this]
        simp
    have hperm : 0 < (run env (initState p recs) sched).permits := by
      have := hinv.permits_bal
      rw [hzero] at this
      omega
    have hrej : ¬(recordCep rec = "" ∨ (recordCep rec).length < 5) := by
      rw [hkey]
      push_neg
      refine ⟨?_, by omega⟩
      intro hx; rw [hx] at hklen; simp at hklen
    have hck : (run env (initState p recs) sched).cache (recordCep rec) = none := by
      rw [hkey]; exact hcache
    have hik : (run env (initState p recs) sched).inflight (recordCep rec) = none := by
      rw [hkey]; exact hinf
    have hstep : stepAt env (run env (initState p recs) sched) i
        = { run env (initState p recs) sched with
            inflight := fupd (run env (initState p recs) sched).inflight
              (recordCep rec) (some (run env (initState p recs) sched).nextFut)
            futures := fupd (run env (initState p recs) sched).futures
              (run env (initState p recs) sched).nextFut (some ⟨recordCep rec, none⟩)
            nextFut := (run env (initState p recs) sched).nextFut + 1
            permits := (run env (initState p recs) sched).permits - 1
            chainLog := (run env (initState p recs) sched).chainLog
              ++ [(recordCep rec, countryOf rec)]
            tasks := fun j => if j = i then
              .inChain (run env (initState p recs) sched).nextFut rec
                (recordCep rec) (countryOf rec)
              else (run env (initState p recs) sched).tasks j } := by
      simp [stepAt, hi, hstart, stepTask, hrej, hck, hik, hperm]
    rw [hstep]
    refine ⟨hcache, by rw [hkey], ?_⟩
    dsimp only
    rw [if_pos rfl, hkey]

/-- C4.  Positive-cache monotonicity: once a key's future resolves non-empty
the value is in the cache; cache entries persist for the rest of the run;
and a later lookup of a cached key returns immediately with the cached
value while every global — cache, pending table, futures, fresh-future
counter, semaphore permits, and the chain invocation log — is untouched:
no Provider Chain invocation and no Rate Limiter permit is used. -/
theorem C4_positive_cache :
    (∀ (env : SysEnv) (p : Nat) (recs : List Record) (sched : List Nat)
       (fid : Nat) (k : String) (v : LookupResult),
      (run env (initState p recs) sched).futures fid = some ⟨k, some v⟩ →
      v ≠ .empty →
      (run env (initState p recs) sched).cache k = some v) ∧
    (∀ (env : SysEnv) (p : Nat) (recs : List Record) (sched sched' : List Nat)
       (k : String) (v : LookupResult),
      (run env (initState p recs) sched).cache k = some v →
      (run env (initState p recs) (sched ++ sched')).cache k = some v) ∧
    (∀ (env : SysEnv) (p : Nat) (recs : List Record) (sched : List Nat)
       (i : Nat) (rec : Record) (k : String) (v : LookupResult),
      (run env (initState p recs) sched).cache k = some v →
      (run env (initState p recs) sched).tasks i = .start rec →
      recordCep rec = k → 5 ≤ k.length →
      (stepAt env (run env (initState p recs) sched) i).tasks i
        = .done (recordSet rec "_parsed" (.res v)) (some v) ∧
      (stepAt env (run env (initState p recs) sched) i).cache
        = (run env (initState p recs) sched).cache ∧
      (stepAt env (run env (initState p recs) sched) i).inflight
        = (run env (initState p recs) sched).inflight ∧
      (stepAt env (run env (initState p recs) sched) i).futures
        = (run env (initState p recs) sched).futures ∧
      (stepAt env (run env (initState p recs) sched) i).nextFut
        = (run env (initState p recs) sched).nextFut ∧
      (stepAt env (run env (initState p recs) sched) i).permits
        = (run env (initState p recs) sched).permits ∧
      (stepAt env (run env (initState p recs) sched) i).chainLog
        = (run env (initState p recs) sched).chainLog) := by
  refine ⟨?_, ?_, ?_⟩
  · intro env p recs sched fid k v hf hv
    exact (inv_reach env p recs sched).fut_cache fid k v hf hv
  · intro env p recs sched sched' k v hc
    rw [run_append]
    exact cache_stable_run env p _ (inv_reach env p recs sched) sched' k v hc
  · intro env p recs sched i rec k v hc hstart hkey hklen
    have hinv := inv_reach env p recs sched
    have hi : i < (run env (initState p recs) sched).ntasks := by
      by_contra hx
      push_neg at hx
      rw [hinv.junk_done i hx] at hstart
      exact TaskPC.noConfusion hstart
    have hrej : ¬(recordCep rec = "" ∨ (recordCep rec).length < 5) := by
      rw [hkey]
      push_neg
      refine ⟨?_, by omega⟩
      intro hx; rw [hx] at hklen; simp at hklen
    have hck : (run env (initState p recs) sched).cache (recordCep rec) = some v := by
      rw [hkey]; exact hc
    have hstep : stepAt env (run env (initState p recs) sched) i
        = { run env (initState p recs) sched with
            tasks := fun j => if j = i then
              .done (recordSet rec "_parsed" (.res v)) (some v)
              else (run env (initState p recs) sched).tasks j } := by
      simp [stepAt, hi, hstart, stepTask, hrej, hck]
    rw [hstep]
    exact ⟨by dsimp only; rw [if_pos rfl], rfl, rfl, rfl, rfl, rfl, rfl⟩

/-- C9.  Key normalization and rejection: `_norm_cep` keeps exactly the
digit characters of the raw key, and a record whose normalized key has
fewer than 5 digits is returned unchanged by a single atomic step that
touches nothing: no pending-request registration, no cache write, no future,
no permit, no Provider Chain invocation. -/
theorem C9_normalization :
    (∀ raw : String, normCep (some raw) = String.mk (raw.data.filter Char.isDigit)) ∧
    (∀ (env : SysEnv) (p : Nat) (recs : List Record) (sched : List Nat)
       (i : Nat) (rec : Record),
      (run env (initState p recs) sched).tasks i = .start rec →
      (recordCep rec).length < 5 →
      (stepAt env (run env (initState p recs) sched) i).tasks i = .done rec none ∧
      (stepAt env (run env (initState p recs) sched) i).cache
        = (run env (initState p recs) sched).cache ∧
      (stepAt env (run env (initState p recs) sched) i).inflight
        = (run env (initState p recs) sched).inflight ∧
      (stepAt env (run env (initState p recs) sched) i).futures
        = (run env (initState p recs) sched).futures ∧
      (stepAt env (run env (initState p recs) sched) i).nextFut
        = (run env (initState p recs) sched).nextFut ∧
      (stepAt env (run env (initState p recs) sched) i).permits
        = (run env (initState p recs) sched).permits ∧
      (stepAt env (run env (initState p recs) sched) i).chainLog
        = (run env (initState p recs) sched).chainLog) := by
  constructor
  · intro raw; rfl
  · intro env p recs sched i rec hstart hshort
    have hinv := inv_reach env p recs sched
    have hi : i < (run env (initState p recs) sched).ntasks := by
      by_contra hx
      push_neg at hx
      rw [hinv.junk_done i hx] at hstart
      exact TaskPC.noConfusion hstart
    have hrej : recordCep rec = "" ∨ (recordCep rec).length < 5 := Or.inr hshort
    have hstep : stepAt env (run env (initState p recs) sched) i
        = { run env (initState p recs) sched with
            tasks := fun j => if j = i then .done rec none
              else (run env (initState p recs) sched).tasks j } := by
      simp [stepAt, hi, hstart, stepTask, hrej]
    rw [hstep]
    exact ⟨by dsimp only; rw [if_pos rfl], rfl, rfl, rfl, rfl, rfl, rfl⟩

/-- C10.  Frame property of `enrich_address_with_zipcode`: on every path of
every reachable state of any batch, a task's record agrees with the record
it was given on every field other than the reserved `"_parsed"` slot; and a
single call on a fresh state runs to completion in at most two steps
(the embedding has no failure outcome: every exit returns the record). -/
theorem C10_frame :
    (∀ (env : SysEnv) (p : Nat) (recs : List Record) (sched : List Nat)
       (i : Nat) (k : String), k ≠ "_parsed" → i < recs.length →
      recordGet (pcRec ((run env (initState p recs) sched).tasks i)) k
        = recordGet (recAt recs i) k) ∧
    (∀ (env : SysEnv) (p : Nat) (rec : Record), 1 ≤ p →
      ∃ r d, (run env (initState p [rec]) [0, 0]).tasks 0 = .done r d ∧
        ∀ k, k ≠ "_parsed" → recordGet r k = recordGet rec k) := by
  constructor
  · intro env p recs sched i k hk hi
    rw [frame_run env p _ (inv_init env p recs) sched i k hk]
    rw [initState_tasks_lt p recs i hi]
    rfl
  · intro env p rec hp
    have hrec0 : recAt [rec] 0 = rec := by simp [recAt]
    by_cases hlen : 5 ≤ (recordCep rec).length
    · -- valid key: register + chain, then complete
      have a1 := arrival_first env p [rec] (recordCep rec) 0 (by simp) hp
        (by rw [hrec0]) hlen
      have r2 := arrival_resolve env [rec] (recordCep rec)
        (countryOf (recAt [rec] 0)) p 0 (fun _ => false)
        (stepAt env (initState p [rec]) 0) hp (by simp)
        (fun j hj hj0 => absurd (by simp at hj; omega : j = 0) hj0) a1
      have hdone := r2.howner
      rw [hrec0] at hdone
      refine ⟨recWith rec (coutcome (env (recordCep rec) (countryOf (recAt [rec] 0)))),
        some (coutcome (env (recordCep rec) (countryOf (recAt [rec] 0)))), hdone, ?_⟩
      intro k hk
      exact recordGet_recWith_ne rec _ k hk
    · -- rejected key: the record is returned unchanged in one step
      have hi : (0 : Nat) < (initState p [rec]).ntasks := by simp [initState]
      have hinit : (initState p [rec]).tasks 0 = .start rec := by
        rw [initState_tasks_lt p [rec] 0 (by simp), hrec0]
      have hrej : recordCep rec = "" ∨ (recordCep rec).length < 5 := Or.inr (by omega)
      have hstep : stepAt env (initState p [rec]) 0 = { initState p [rec] with
          tasks := fun j => if j = 0 then .done rec none
            else (initState p [rec]).tasks j } := by
        simp [stepAt, hi, hinit, stepTask, hrej]
      have hd1 : (stepAt env (initState p [rec]) 0).tasks 0 = .done rec none := by
        rw [hstep]
        simp
      have hi2 : (0 : Nat) < (stepAt env (initState p [rec]) 0).ntasks := by
        rw [hstep]
        show (0 : Nat) < (initState p [rec]).ntasks
        simp [initState]
      have hstep2 : ∀ s1 : SysState, s1.tasks 0 = .done rec none → 0 < s1.ntasks →
          stepAt env s1 0 = s1 := by
        intro s1 h1 h2
        simp [stepAt, h2, h1, stepTask]
      refine ⟨rec, none, ?_, fun k hk => rfl⟩
      show (stepAt env (stepAt env (initState p [rec]) 0) 0).tasks 0 = .done rec none
      rw [hstep2 _ hd1 hi2, hd1]

/-! ## Provider chain theorems -/

theorem zbLoop_no_success (cep country : String) (base : ℚ) (jitter : Nat → ℚ)
    (resp : Nat → ZBResp) (h : ∀ n, ¬ zbSuccess (resp n)) :
    ∀ fuel attempt, (zbLoop cep country base jitter resp attempt fuel).result = .empty := by
  intro fuel
  induction fuel with
  | zero => intro attempt; rfl
  | succ fuel ih =>
    intro attempt
    rcases hr : resp attempt with ⟨status, ra, results⟩ | _ | _ | msg
    · by_cases h429 : status = 429
      · simp [zbLoop, hr, h429, ih]
      · by_cases h2xx : 200 ≤ status ∧ status < 300
        · exact absurd ⟨status, ra, results, hr, h2xx.1, h2xx.2⟩ (h attempt)
        · simp [zbLoop, hr, h429, h2xx, ih]
          split <;> rfl
    · simp [zbLoop, hr, ih]
    · simp [zbLoop, hr, ih]
    · simp [zbLoop, hr]

/-- C6.  Permanent-client short-circuit and no error propagation: a 4xx
status other than 429 on any attempt makes the remaining retry loop return
`{}` immediately — exactly one more HTTP call, no waits, no further
attempts; any unexpected exception in an attempt body likewise returns `{}`
at that attempt; and when no attempt ever yields a 2xx response the lookup
returns `{}` — the embedding of the loop is a total function into `ZBTrace`,
so no exception escapes it on any input. -/
theorem C6_permanent_short_circuit :
    (∀ (cep country : String) (base : ℚ) (jitter : Nat → ℚ) (resp : Nat → ZBResp)
       (attempt fuel status : Nat) (ra : Option String) (results : List ZBEntry),
      resp attempt = .http status ra results →
      400 ≤ status → status < 500 → status ≠ 429 →
      zbLoop cep country base jitter resp attempt (fuel + 1) = ⟨.empty, 1, []⟩) ∧
    (∀ (cep country : String) (base : ℚ) (jitter : Nat → ℚ) (resp : Nat → ZBResp)
       (attempt fuel : Nat) (msg : String),
      resp attempt = .raised msg →
      zbLoop cep country base jitter resp attempt (fuel + 1) = ⟨.empty, 1, []⟩) ∧
    (∀ (cep country : String) (base : ℚ) (jitter : Nat → ℚ) (resp : Nat → ZBResp),
      (∀ n, ¬ zbSuccess (resp n)) →
      (zipcodebaseLookup cep country base jitter resp).result = .empty) := by
  refine ⟨?_, ?_, ?_⟩
  · intro cep country base jitter resp attempt fuel status ra results hr h4 h5 hne
    have h429 : ¬ status = 429 := hne
    have h2xx : ¬ (200 ≤ status ∧ status < 300) := by omega
    have hperm : 400 ≤ status ∧ status < 500 ∧ status ≠ 429 := ⟨h4, h5, hne⟩
    simp [zbLoop, hr, h429, h2xx, hperm]
  · intro cep country base jitter resp attempt fuel msg hr
    simp [zbLoop, hr]
  · intro cep country base jitter resp h
    exact zbLoop_no_success cep country base jitter resp h 3 1

/-- C5 counterexample to the claim as stated.  The claim says the chain
"waits the server-supplied Retry-After hint when present, else
base_delay × attempt_number".  Here a hint IS present on attempt 1
(`Retry-After: soon`, which does not parse as an integer), the jitter is 0,
yet the wait equals `base_delay × 1` — it is 2 when `base_delay = 2` and 3
when `base_delay = 3`, so the wait tracks the computed backoff and not the
present hint: the code falls back to `base_delay × attempt` whenever
`int(Retry-After)` raises `ValueError` (zipcode_service.py lines 63-68). -/
theorem C5_counterexample :
    (zipcodebaseLookup "12345" "BR" 2 (fun _ => 0)
      (fun n => if n = 1 then .http 429 (some "soon") []
                else .http 200 none [⟨none, none, none, none, none⟩])).waits = [2] ∧
    (zipcodebaseLookup "12345" "BR" 3 (fun _ => 0)
      (fun n => if n = 1 then .http 429 (some "soon") []
                else .http 200 none [⟨none, none, none, none, none⟩])).waits = [3] := by
  have h1 : pyParseInt "soon" = none := by decide
  constructor <;>
    · simp [zipcodebaseLookup, zbLoop, hintWait, h1]

/-- C5 (amended).  Retry/backoff on rate limiting: on a 429 the loop waits
`int(Retry-After)` when the header is present *and parses as an integer*,
else `base_delay × attempt_number`, plus the jitter sample of that attempt
(drawn from [0, 0.5], so the wait lies within [w, w + 1/2] of the computed
wait w); and when the primary returns 429 on attempts 1 and 2 and a
successful response on attempt 3, the lookup returns the parsed result
after exactly 3 attempts, with exactly those two waits. -/
theorem C5_retry_backoff :
    (∀ (h : String) (m : Int) (base : ℚ) (n : Nat),
      pyParseInt h = some m → hintWait (some h) base n = (m : ℚ)) ∧
    (∀ (h : String) (base : ℚ) (n : Nat),
      pyParseInt h = none → hintWait (some h) base n = base * n) ∧
    (∀ (base : ℚ) (n : Nat), hintWait none base n = base * n) ∧
    (∀ (jitter : Nat → ℚ), (∀ n, 0 ≤ jitter n ∧ jitter n ≤ 1/2) →
      ∀ (w : ℚ) (n : Nat), w ≤ w + jitter n ∧ w + jitter n ≤ w + 1/2) ∧
    (∀ (cep country : String) (base : ℚ) (jitter : Nat → ℚ) (resp : Nat → ZBResp)
       (ra1 ra2 ra3 : Option String) (res1 res2 : List ZBEntry)
       (s3 : Nat) (e : ZBEntry) (rest : List ZBEntry),
      resp 1 = .http 429 ra1 res1 →
      resp 2 = .http 429 ra2 res2 →
      resp 3 = .http s3 ra3 (e :: rest) →
      200 ≤ s3 → s3 < 300 →
      zipcodebaseLookup cep country base jitter resp
        = ⟨.found (zbAddress cep country e), 3,
           [hintWait ra1 base 1 + jitter 1, hintWait ra2 base 2 + jitter 2]⟩) := by
  refine ⟨?_, ?_, ?_, ?_, ?_⟩
  · intro h m base n hm
    simp [hintWait, hm]
  · intro h base n hm
    simp [hintWait, hm]
  · intro base n
    rfl
  · intro jitter hj w n
    have := hj n
    constructor <;> linarith
  · intro cep country base jitter resp ra1 ra2 ra3 res1 res2 s3 e rest h1 h2 h3 hs3a hs3b
    have hne : ¬ s3 = 429 := by omega
    have h2xx : 200 ≤ s3 ∧ s3 < 300 := ⟨hs3a, hs3b⟩
    simp [zipcodebaseLookup, zbLoop, h1, h2, h3, hne, h2xx]

/-- C7.  Fallback gating: the ViaCEP fallback is invoked exactly once if and
only if the result of the primary phase is empty and the key's region is the
fallback's supported region (`BR`); it is never invoked more than once (and
never retried — one invocation is a single HTTP call); when no API key is
configured the primary is skipped entirely (zero primary HTTP attempts) and
the chain goes straight to the fallback for BR keys; and any fallback
failure — a non-200 status, the provider's `erro` flag, or an exception —
maps to the empty result. -/
theorem C7_fallback_gating :
    ∀ (cep country : String) (e : ChainEnv),
      ((providerChain cep country e).fallbackCalls = 1 ↔
        ((primaryPhase cep country e).result = .empty ∧ country = "BR")) ∧
      (providerChain cep country e).fallbackCalls ≤ 1 ∧
      (e.hasKey = false → (providerChain cep country e).primaryAttempts = 0 ∧
        (country = "BR" → (providerChain cep country e).fallbackCalls = 1)) ∧
      (∀ status erro b l u, status ≠ 200 →
        viaCep cep (.http status erro b l u) = .empty) ∧
      (∀ erro b l u, erro = true → viaCep cep (.http 200 erro b l u) = .empty) ∧
      (∀ m, viaCep cep (.raised m) = .empty) := by
  intro cep country e
  have hgate : (providerChain cep country e).fallbackCalls = 1 ↔
      ((primaryPhase cep country e).result = .empty ∧ country = "BR") := by
    rcases hres : (primaryPhase cep country e).result with _ | f
    · by_cases hbr : country = "BR"
      · subst hbr; simp [providerChain, hres]
      · simp [providerChain, hres, hbr]
    · simp [providerChain, hres]
  refine ⟨hgate, ?_, ?_, ?_, ?_, ?_⟩
  · rcases hres : (primaryPhase cep country e).result with _ | f
    · by_cases hbr : country = "BR"
      · subst hbr; simp [providerChain, hres]
      · simp [providerChain, hres, hbr]
    · simp [providerChain, hres]
  · intro hk
    have hpp : primaryPhase cep country e = ⟨.empty, 0, []⟩ := by
      simp [primaryPhase, hk]
    constructor
    · unfold providerChain
      rw [hpp]
      by_cases hbr : country = "BR" <;> simp [hbr]
    · intro hbr
      rw [hgate, hpp]
      exact ⟨rfl, hbr⟩
  · intro status erro b l u hne
    simp [viaCep, hne]
  · intro erro b l u herr
    simp [viaCep, herr]
  · intro m
    rfl

/-! ## Stage executor theorems -/

@[simp] theorem exIsRunning_start {V : Type} : exIsRunning (ExPC.start : ExPC V) = false := rfl
@[simp] theorem exIsRunning_waitSem {V : Type} : exIsRunning (ExPC.waitSem : ExPC V) = false := rfl
@[simp] theorem exIsRunning_running {V : Type} : exIsRunning (ExPC.running : ExPC V) = true := rfl
@[simp] theorem exIsRunning_done {V : Type} (v : V) : exIsRunning (ExPC.done v) = false := rfl

theorem exInv_init {V : Type} (env : ExEnv V) (c n : Nat) :
    ExInv env c n (exInit V c n) := by
  constructor
  case hnt => rfl
  case hbal =>
    have hz : exRunningCount (exInit V c n) = 0 := by
      unfold exRunningCount
      rw [List.length_eq_zero, List.filter_eq_nil_iff]
      intro j _
      simp [exInit, exIsRunning]
    rw [hz]
    simp [exInit]
  case hval =>
    intro i v hv
    exact absurd hv (by simp [exInit])
  case hiss =>
    exact ⟨[], by simp, by simp, fun i _ hd => by simp [exInit, exIsDone] at hd, by simp [exInit]⟩

theorem exInv_step {V : Type} (env : ExEnv V) (c n : Nat) (s : ExState V)
    (i : Nat) (h : ExInv env c n s) : ExInv env c n (exStepAt env s i) := by
  by_cases hi : i < s.ntasks
  · cases hpc : s.tasks i with
    | start =>
      by_cases hperm : 0 < s.permits
      · have hstep : exStepAt env s i = { s with
            permits := s.permits - 1
            tasks := fun j => if j = i then .running else s.tasks j } := by
          simp [exStepAt, hi, hpc, hperm]
        rw [hstep]
        refine ⟨h.hnt, ?_, ?_, ?_⟩
        ·
          have hupd := length_filter_update exIsRunning s.tasks i (.running) s.ntasks hi
          have hb := h.hbal
          unfold exRunningCount at hb ⊢
          dsimp only at *
          rw [hpc] at hupd
          simp at hupd
          omega
        ·
          intro a v ha
          dsimp only at ha
          by_cases hai : a = i
          · rw [hai, if_pos rfl] at ha; exact ExPC.noConfusion ha
          · rw [if_neg hai] at ha; exact h.hval a v ha
        ·
          obtain ⟨ord, hnd, hmem, hcov, hiss⟩ := h.hiss
          refine ⟨ord, hnd, ?_, ?_, hiss⟩
          · intro a ha
            obtain ⟨h1, h2⟩ := hmem a ha
            refine ⟨h1, ?_⟩
            dsimp only
            have hai : a ≠ i := by
              intro hx; rw [hx, hpc] at h2; simp [exIsDone] at h2
            rw [if_neg hai]
            exact h2
          · intro a h1 h2
            dsimp only at h1 h2
            by_cases hai : a = i
            · rw [hai, if_pos rfl] at h2; simp [exIsDone] at h2
            · rw [if_neg hai] at h2; exact hcov a h1 h2
      · have hstep : exStepAt env s i = { s with
            tasks := fun j => if j = i then .waitSem else s.tasks j } := by
          simp [exStepAt, hi, hpc, hperm]
        rw [hstep]
        refine ⟨h.hnt, ?_, ?_, ?_⟩
        ·
          have hupd := length_filter_update exIsRunning s.tasks i (.waitSem) s.ntasks hi
          have hb := h.hbal
          unfold exRunningCount at hb ⊢
          dsimp only at *
          rw [hpc] at hupd
          simp at hupd
          omega
        ·
          intro a v ha
          dsimp only at ha
          by_cases hai : a = i
          · rw [hai, if_pos rfl] at ha; exact ExPC.noConfusion ha
          · rw [if_neg hai] at ha; exact h.hval a v ha
        ·
          obtain ⟨ord, hnd, hmem, hcov, hiss⟩ := h.hiss
          refine ⟨ord, hnd, ?_, ?_, hiss⟩
          · intro a ha
            obtain ⟨h1, h2⟩ := hmem a ha
            refine ⟨h1, ?_⟩
            dsimp only
            have hai : a ≠ i := by
              intro hx; rw [hx, hpc] at h2; simp [exIsDone] at h2
            rw [if_neg hai]
            exact h2
          · intro a h1 h2
            dsimp only at h1 h2
            by_cases hai : a = i
            · rw [hai, if_pos rfl] at h2; simp [exIsDone] at h2
            · rw [if_neg hai] at h2; exact hcov a h1 h2
    | waitSem =>
      by_cases hperm : 0 < s.permits
      · have hstep : exStepAt env s i = { s with
            permits := s.permits - 1
            tasks := fun j => if j = i then .running else s.tasks j } := by
          simp [exStepAt, hi, hpc, hperm]
        rw [hstep]
        refine ⟨h.hnt, ?_, ?_, ?_⟩
        ·
          have hupd := length_filter_update exIsRunning s.tasks i (.running) s.ntasks hi
          have hb := h.hbal
          unfold exRunningCount at hb ⊢
          dsimp only at *
          rw [hpc] at hupd
          simp at hupd
          omega
        ·
          intro a v ha
          dsimp only at ha
          by_cases hai : a = i
          · rw [hai, if_pos rfl] at ha; exact ExPC.noConfusion ha
          · rw [if_neg hai] at ha; exact h.hval a v ha
        ·
          obtain ⟨ord, hnd, hmem, hcov, hiss⟩ := h.hiss
          refine ⟨ord, hnd, ?_, ?_, hiss⟩
          · intro a ha
            obtain ⟨h1, h2⟩ := hmem a ha
            refine ⟨h1, ?_⟩
            dsimp only
            have hai : a ≠ i := by
              intro hx; rw [hx, hpc] at h2; simp [exIsDone] at h2
            rw [if_neg hai]
            exact h2
          · intro a h1 h2
            dsimp only at h1 h2
            by_cases hai : a = i
            · rw [hai, if_pos rfl] at h2; simp [exIsDone] at h2
            · rw [if_neg hai] at h2; exact hcov a h1 h2
      · have hstep : exStepAt env s i = s := by
          simp [exStepAt, hi, hpc, hperm]
        rw [hstep]; exact h
    | running =>
      obtain ⟨ord, hnd, hmem, hcov, hiss⟩ := h.hiss
      have hmemi : i ∉ ord := by
        intro hx
        have := (hmem i hx).2
        rw [hpc] at this
        simp [exIsDone] at this
      have hordmem : ∀ (w : V) a, a ∈ ord ++ [i] → a < s.ntasks ∧
          exIsDone (if a = i then ExPC.done w else s.tasks a) = true := by
        intro w a ha
        rcases List.mem_append.mp ha with hx | hx
        · obtain ⟨h1, h2⟩ := hmem a hx
          refine ⟨h1, ?_⟩
          have hai : a ≠ i := fun hy => hmemi (hy ▸ hx)
          rw [if_neg hai]
          exact h2
        · have hai : a = i := by simpa using hx
          subst hai
          exact ⟨hi, by rw [if_pos rfl]; rfl⟩
      have hordcov : ∀ (w : V) a, a < s.ntasks →
          exIsDone (if a = i then ExPC.done w else s.tasks a) = true →
          a ∈ ord ++ [i] := by
        intro w a h1 h2
        by_cases hai : a = i
        · simp [hai]
        · rw [if_neg hai] at h2
          exact List.mem_append.mpr (Or.inl (hcov a h1 h2))
      have hordnd : (ord ++ [i]).Nodup := by
        rw [List.nodup_append]
        exact ⟨hnd, List.nodup_singleton i, by simpa using hmemi⟩
      cases hop : env.op i with
      | ok v =>
        have hstep : exStepAt env s i = { s with
            permits := s.permits + 1
            tasks := fun j => if j = i then .done v else s.tasks j } := by
          simp [exStepAt, hi, hpc, hop]
        rw [hstep]
        have hvv : v = exValue env i := by simp [exValue, hop]
        refine ⟨h.hnt, ?_, ?_, ?_⟩
        ·
          have hupd := length_filter_update exIsRunning s.tasks i (.done v) s.ntasks hi
          have hb := h.hbal
          unfold exRunningCount at hb ⊢
          dsimp only at *
          rw [hpc] at hupd
          simp at hupd
          omega
        ·
          intro a v' ha
          dsimp only at ha
          by_cases hai : a = i
          · rw [hai, if_pos rfl] at ha
            rw [hai, ← ExPC.done.inj ha]
            exact hvv
          · rw [if_neg hai] at ha; exact h.hval a v' ha
        ·
          refine ⟨ord ++ [i], hordnd, fun a ha => hordmem v a ha,
            fun a h1 h2 => hordcov v a h1 h2, ?_⟩
          dsimp only
          rw [List.filterMap_append, hiss]
          simp [hop]
      | error m =>
        have hstep : exStepAt env s i = { s with
            permits := s.permits + 1
            tasks := fun j => if j = i then .done (env.deflt i) else s.tasks j
            issues := s.issues ++ [⟨env.stage, env.ids i, m⟩] } := by
          simp [exStepAt, hi, hpc, hop]
        rw [hstep]
        have hvv : env.deflt i = exValue env i := by simp [exValue, hop]
        refine ⟨h.hnt, ?_, ?_, ?_⟩
        ·
          have hupd := length_filter_update exIsRunning s.tasks i
            (.done (env.deflt i)) s.ntasks hi
          have hb := h.hbal
          unfold exRunningCount at hb ⊢
          dsimp only at *
          rw [hpc] at hupd
          simp at hupd
          omega
        ·
          intro a v' ha
          dsimp only at ha
          by_cases hai : a = i
          · rw [hai, if_pos rfl] at ha
            rw [hai, ← ExPC.done.inj ha]
            exact hvv
          · rw [if_neg hai] at ha; exact h.hval a v' ha
        ·
          refine ⟨ord ++ [i], hordnd, fun a ha => hordmem (env.deflt i) a ha,
            fun a h1 h2 => hordcov (env.deflt i) a h1 h2, ?_⟩
          dsimp only
          rw [List.filterMap_append, hiss]
          simp [hop, exIssue]
    | done v =>
      have hstep : exStepAt env s i = s := by
        simp [exStepAt, hi, hpc]
      rw [hstep]; exact h
  · have hstep : exStepAt env s i = s := by simp [exStepAt, hi]
    rw [hstep]; exact h

theorem exInv_run {V : Type} (env : ExEnv V) (c n : Nat) (s : ExState V)
    (sched : List Nat) (h : ExInv env c n s) : ExInv env c n (exRun env s sched) := by
  induction sched generalizing s with
  | nil => exact h
  | cons a l ih => exact ih _ (exInv_step env c n s a h)

theorem exInv_reach {V : Type} (env : ExEnv V) (c n : Nat) (sched : List Nat) :
    ExInv env c n (exRun env (exInit V c n) sched) :=
  exInv_run env c n _ sched (exInv_init env c n)

/-- C8.  Stage executor isolation, ordering and bound: for every batch of
`N` records run under concurrency bound `C`, in every reachable state the
batch size is stable and at most `C` per-record operations are in flight;
and when a run completes, the result list has exactly `N` positionally
aligned entries — slot `i` holds record `i`'s operation value, or the
defined default when that operation failed — and the accumulated issue list
is, up to completion order, exactly one Issue `{stage, id i, message}` per
failing record; other records are unaffected (their slots are determined by
their own operations alone). -/
theorem C8_executor (V : Type) (env : ExEnv V) (c n : Nat) (sched : List Nat) :
    (exRun env (exInit V c n) sched).ntasks = n ∧
    exRunningCount (exRun env (exInit V c n) sched) ≤ c ∧
    (exCompleted (exRun env (exInit V c n) sched) →
      exResults (exRun env (exInit V c n) sched)
        = (List.range n).map (fun i => some (exValue env i)) ∧
      (exRun env (exInit V c n) sched).issues.Perm (exIssuesOf env n)) := by
  have hinv := exInv_reach env c n sched (V := V)
  refine ⟨hinv.hnt, by have := hinv.hbal; omega, ?_⟩
  intro hcomp
  have hdone : ∀ i, i < n →
      (exRun env (exInit V c n) sched).tasks i = .done (exValue env i) := by
    intro i hi
    have hi' : i < (exRun env (exInit V c n) sched).ntasks := by rw [hinv.hnt]; exact hi
    have := hcomp i hi'
    cases hpc : (exRun env (exInit V c n) sched).tasks i with
    | done v => rw [hinv.hval i v hpc]
    | start => rw [hpc] at this; simp [exIsDone] at this
    | waitSem => rw [hpc] at this; simp [exIsDone] at this
    | running => rw [hpc] at this; simp [exIsDone] at this
  constructor
  · unfold exResults
    rw [hinv.hnt]
    apply List.map_congr_left
    intro i hi
    rw [List.mem_range] at hi
    rw [hdone i hi]
  · obtain ⟨ord, hnd, hmem, hcov, hiss⟩ := hinv.hiss
    have hperm : ord.Perm (List.range n) := by
      apply (List.perm_ext_iff_of_nodup hnd (List.nodup_range n)).mpr
      intro a
      rw [List.mem_range]
      constructor
      · intro ha
        have := (hmem a ha).1
        rw [hinv.hnt] at this
        exact this
      · intro ha
        refine hcov a (by rw [hinv.hnt]; exact ha) ?_
        rw [hdone a ha]
        rfl
    rw [hiss]
    unfold exIssuesOf
    exact hperm.filterMap _

/-! ## Witnesses: the theorems exercised at concrete inputs -/

theorem C1_single_flight_witness :
    (inKeyCount (run envW (initState 1 recsW) [1, 0, 1, 0]) "12345" ≤ 1) ∧
    ((run envW (initState 1 recsW) ((1 :: [0]) ++ [1, 0])).chainLog
        = [("12345", countryOf (recAt recsW 1))] ∧
      ∀ j, j < recsW.length → ∃ r',
        (run envW (initState 1 recsW) ((1 :: [0]) ++ [1, 0])).tasks j
          = .done r' (some (coutcome (envW "12345" (countryOf (recAt recsW 1)))))) :=
  ⟨C1_single_flight.1 envW 1 recsW [1, 0, 1, 0] "12345",
   C1_single_flight.2 envW 1 recsW "12345" 1 [0] [1, 0] (by decide) (by decide)
     (by decide) (by decide) (by decide)⟩

theorem C2_waiters_released_witness :
    (stepAt envW (run envW (initState 1 [recW]) [0]) 0).futures 0
      = some ⟨"12345", some (coutcome (envW "12345" "BR"))⟩ ∧
    (stepAt envW (run envW (initState 1 [recW]) [0]) 0).inflight "12345" = none ∧
    (∀ j fid' rec' k',
      (stepAt envW (run envW (initState 1 [recW]) [0]) 0).tasks j = .waitFut fid' rec' k' →
      fid' = 0 →
      ∃ r d, (stepAt envW (stepAt envW (run envW (initState 1 [recW]) [0]) 0) j).tasks j
        = .done r d) :=
  C2_waiters_released envW 1 [recW] [0] 0 0 recW "12345" "BR" (by decide)

theorem C3_no_negative_caching_witness :
    ((run envE (initState 1 recsW) [0, 0]).cache "12345" = none ∧
      (stepAt envE (run envE (initState 1 recsW) [0, 0]) 1).chainLog
        = (run envE (initState 1 recsW) [0, 0]).chainLog ++ [("12345", countryOf recW)] ∧
      (stepAt envE (run envE (initState 1 recsW) [0, 0]) 1).tasks 1
        = .inChain (run envE (initState 1 recsW) [0, 0]).nextFut recW "12345" (countryOf recW)) :=
  C3_no_negative_caching.2 envE 1 recsW [0, 0] 1 recW "12345" (by decide)
    (fun c v h => (ChainOutcome.ok.inj h).symm) (by decide) (by decide) (by decide)
    (by decide)

theorem C4_positive_cache_witness :
    ((run envW (initState 1 recsW) [0, 0]).cache "12345" = some (.found afW)) ∧
    ((run envW (initState 1 recsW) ([0, 0] ++ [1])).cache "12345" = some (.found afW)) ∧
    ((stepAt envW (run envW (initState 1 recsW) [0, 0]) 1).tasks 1
        = .done (recordSet recW "_parsed" (.res (.found afW))) (some (.found afW)) ∧
      (stepAt envW (run envW (initState 1 recsW) [0, 0]) 1).chainLog
        = (run envW (initState 1 recsW) [0, 0]).chainLog ∧
      (stepAt envW (run envW (initState 1 recsW) [0, 0]) 1).permits
        = (run envW (initState 1 recsW) [0, 0]).permits) :=
  ⟨C4_positive_cache.1 envW 1 recsW [0, 0] 0 "12345" (.found afW) (by decide) (by decide),
   C4_positive_cache.2.1 envW 1 recsW [0, 0] [1] "12345" (.found afW) (by decide),
   (C4_positive_cache.2.2 envW 1 recsW [0, 0] 1 recW "12345" (.found afW)
      (by decide) (by decide) (by decide) (by decide)).1,
   ((C4_positive_cache.2.2 envW 1 recsW [0, 0] 1 recW "12345" (.found afW)
      (by decide) (by decide) (by decide) (by decide)).2.2.2.2.2.2 :),
   ((C4_positive_cache.2.2 envW 1 recsW [0, 0] 1 recW "12345" (.found afW)
      (by decide) (by decide) (by decide) (by decide)).2.2.2.2.2.1 :)⟩

theorem C5_retry_backoff_witness :
    hintWait (some "7") 2 1 = (7 : ℚ) ∧
    hintWait (some "soon") 2 1 = 2 * 1 ∧
    zipcodebaseLookup "12345" "BR" 1 (fun _ => 0) respW
      = ⟨.found (zbAddress "12345" "BR" ⟨none, none, none, none, none⟩), 3,
         [hintWait (some "7") 1 1 + 0, hintWait (some "7") 1 2 + 0]⟩ :=
  ⟨C5_retry_backoff.1 "7" 7 2 1 (by decide),
   C5_retry_backoff.2.1 "soon" 2 1 (by decide),
   C5_retry_backoff.2.2.2.2 "12345" "BR" 1 (fun _ => 0) respW (some "7") (some "7")
     none [] [] 200 ⟨none, none, none, none, none⟩ [] (by decide) (by decide)
     (by decide) (by decide) (by decide)⟩

theorem C6_permanent_short_circuit_witness :
    zbLoop "12345" "BR" 1 (fun _ => 0) (fun _ => .http 404 none []) 1 3
      = ⟨.empty, 1, []⟩ ∧
    zbLoop "12345" "BR" 1 (fun _ => 0) (fun _ => .raised "boom") 1 3
      = ⟨.empty, 1, []⟩ ∧
    (zipcodebaseLookup "12345" "BR" 1 (fun _ => 0) (fun _ => .http 500 none [])).result
      = .empty :=
  ⟨C6_permanent_short_circuit.1 "12345" "BR" 1 (fun _ => 0) (fun _ => .http 404 none [])
     1 2 404 none [] rfl (by decide) (by decide) (by decide),
   C6_permanent_short_circuit.2.1 "12345" "BR" 1 (fun _ => 0) (fun _ => .raised "boom")
     1 2 "boom" rfl,
   C6_permanent_short_circuit.2.2 "12345" "BR" 1 (fun _ => 0) (fun _ => .http 500 none [])
     (fun n h => by
       obtain ⟨s, ra, res, hr, h1, h2⟩ := h
       injection hr with hs hra hres
       omega)⟩

theorem C7_fallback_gating_witness :
    (providerChain "12345" "BR" ⟨false, 1, fun _ => 0, fun _ => .raised "x",
        .http 200 false none none none⟩).primaryAttempts = 0 ∧
    (providerChain "12345" "BR" ⟨false, 1, fun _ => 0, fun _ => .raised "x",
        .http 200 false none none none⟩).fallbackCalls = 1 ∧
    viaCep "12345" (.http 500 false none none none) = .empty :=
  ⟨((C7_fallback_gating "12345" "BR" _).2.2.1 rfl).1,
   ((C7_fallback_gating "12345" "BR" _).2.2.1 rfl).2 rfl,
   (C7_fallback_gating "12345" "BR" ⟨false, 1, fun _ => 0, fun _ => .raised "x",
      .http 200 false none none none⟩).2.2.2.1 500 false none none none (by decide)⟩

theorem C8_executor_witness :
    exResults (exRun exEnvW (exInit Nat 2 5) exSchedW)
      = (List.range 5).map (fun i => some (exValue exEnvW i)) ∧
    (exRun exEnvW (exInit Nat 2 5) exSchedW).issues.Perm (exIssuesOf exEnvW 5) ∧
    exRunningCount (exRun exEnvW (exInit Nat 2 5) [0, 1, 2]) ≤ 2 :=
  ⟨((C8_executor Nat exEnvW 2 5 exSchedW).2.2 (by decide)).1,
   ((C8_executor Nat exEnvW 2 5 exSchedW).2.2 (by decide)).2,
   (C8_executor Nat exEnvW 2 5 [0, 1, 2]).2.1⟩

theorem C9_normalization_witness :
    normCep (some "1-2.3 45") = String.mk ("1-2.3 45".data.filter Char.isDigit) ∧
    ((stepAt envW (run envW (initState 1 [recShortW]) []) 0).tasks 0
        = .done recShortW none ∧
      (stepAt envW (run envW (initState 1 [recShortW]) []) 0).chainLog
        = (run envW (initState 1 [recShortW]) []).chainLog ∧
      (stepAt envW (run envW (initState 1 [recShortW]) []) 0).nextFut
        = (run envW (initState 1 [recShortW]) []).nextFut) :=
  ⟨C9_normalization.1 "1-2.3 45",
   (C9_normalization.2 envW 1 [recShortW] [] 0 recShortW (by decide) (by decide)).1,
   ((C9_normalization.2 envW 1 [recShortW] [] 0 recShortW (by decide) (by decide)).2.2.2.2.2.2 :),
   ((C9_normalization.2 envW 1 [recShortW] [] 0 recShortW (by decide) (by decide)).2.2.2.2.1 :)⟩

theorem C10_frame_witness :
    (recordGet (pcRec ((run envW (initState 1 recsW) [1, 0, 1, 0]).tasks 0)) "cep"
      = recordGet (recAt recsW 0) "cep") ∧
    (∃ r d, (run envW (initState 1 [recW]) [0, 0]).tasks 0 = .done r d ∧
      ∀ k, k ≠ "_parsed" → recordGet r k = recordGet recW k) :=
  ⟨C10_frame.1 envW 1 recsW [1, 0, 1, 0] 0 "cep" (by decide) (by decide),
   C10_frame.2 envW 1 recW (by decide)⟩

end MDM
